import Mathlib

/-!
# Verification of the cobs-simd COBS codec

Shallow embedding of the Rust crate in this repository (files `src/lib.rs`,
`src/block_iter.rs`, `src/next_zero_simd_128.rs`, `src/next_zero_std_simd.rs`).

Bytes are modelled as `Nat`; all byte arithmetic performed by the code stays
below 256, and theorems state the `< 256` side conditions where they matter.
Encoders that write into a caller-provided buffer are modelled as emitting a
list of `(index, value)` write events together with the returned byte count;
`applyWrites` replays such events on a buffer modelled as a `List Nat`.
-/

namespace CobsSimd

/-- Scalar zero scan `data.iter().position(|x| *x == 0)`: function
`next_zero_index` in `block_iter.rs`, the baseline all SIMD variants are
compared against. -/
def next_zero_index : List Nat → Option Nat
  | [] => none
  | b :: t => if b = 0 then some 0 else (next_zero_index t).map (· + 1)

/-- Trailing-zero count of a machine word of bit width `w`, as computed by
`u8::trailing_zeros` / `u16::trailing_zeros` / `u32::trailing_zeros`: the
result is the bit width `w` when the value is zero. -/
def wordTrailingZeros : Nat → Nat → Nat
  | 0, _ => 0
  | w + 1, n => if n % 2 = 1 then 0 else wordTrailingZeros w (n / 2) + 1

/-- `Mask::to_bitmask` of the per-lane comparison `block.simd_eq(splat(0))`
in `first_zero_in_vector` (`next_zero_std_simd.rs`): lane `i` of the mask
becomes bit `i` of the integer bitmask (the repository checks this bit order
in its `bitmask_assumptions` test). -/
def zeroBitmask : List Nat → Nat
  | [] => 0
  | b :: t => (if b = 0 then 1 else 0) + 2 * zeroBitmask t

/-- `first_zero_in_vector::<N>` from `next_zero_std_simd.rs`: compare the
vector against the all-zero vector, convert the mask to a bitmask and count
its trailing zeros.  For the lane counts instantiated by the crate
(8, 16, 32) the bitmask integer type is exactly `N` bits wide. -/
def first_zero_in_vector (N : Nat) (block : List Nat) : Nat :=
  wordTrailingZeros N (zeroBitmask block)

/-- The byte-by-byte remainder loop of `SimdBlocks16::next_zero_index`
(`next_zero_simd_128.rs`), whose `nonzero_bytes` counter is a `usize`: scan
the short final chunk, incrementing the running count of confirmed
non-zero bytes. -/
def remainderScan : List Nat → Nat → Option Nat
  | [], _ => none
  | b :: t, acc => if b = 0 then some acc else remainderScan t (acc + 1)

/-- `2^32`: the modulus of the `u32` arithmetic of `nonzero_bytes` in
`SimdBlocksGeneric::next_zero_index` (`next_zero_std_simd.rs`, inferred
`u32` because `first_zero_in_vector` returns `u32`). -/
def u32size : Nat := 4294967296

/-- The byte-by-byte remainder loop of `SimdBlocksGeneric::next_zero_index`
(`next_zero_std_simd.rs`): as `remainderScan`, but its `nonzero_bytes`
counter is a `u32`, so every increment is reduced modulo `2^32` (the wrap is
the release-build semantics; a debug build panics at the same increment). -/
def remainderScanU32 : List Nat → Nat → Option Nat
  | [], _ => none
  | b :: t, acc => if b = 0 then some acc else remainderScanU32 t ((acc + 1) % u32size)

/-- Chunk loop of `SimdBlocksGeneric::<N>::next_zero_index`
(`next_zero_std_simd.rs`): process the exact `N`-byte chunks produced by
`array_chunks::<N>` with `first_zero_in_vector`, then scan the remainder
byte by byte.  `nonzero_bytes` is the running offset accumulated across
chunks; it is a `u32` in the source (`first_zero_in_vector` returns `u32`),
so every `nonzero_bytes += index` is reduced modulo `2^32` (release-build
wrap; a debug build panics at the same addition).  (The crate only
instantiates `N` at 8, 16 and 32; the `N = 0` guard merely makes the
recursion total and is never reached at those widths.)
The first argument is structural-recursion fuel: every chunk step consumes
at least one byte, so the caller passes `data.length` and the fuel never
runs out (the fuel-exhausted clause behaves like the remainder loop, and is
only ever reached with an empty `data`). -/
def stdSimdNextZeroAux (N : Nat) : Nat → List Nat → Nat → Option Nat
  | 0, data, nonzero_bytes => remainderScanU32 data nonzero_bytes
  | fuel + 1, data, nonzero_bytes =>
    if N = 0 ∨ data.length < N then
      remainderScanU32 data nonzero_bytes
    else
      let index := first_zero_in_vector N (data.take N)
      if index < N then some ((nonzero_bytes + index) % u32size)
      else stdSimdNextZeroAux N fuel (data.drop N) ((nonzero_bytes + index) % u32size)

/-- `SimdBlocksGeneric::<N>::next_zero_index` from `next_zero_std_simd.rs`. -/
def SimdBlocksGeneric_next_zero_index (N : Nat) (data : List Nat) : Option Nat :=
  stdSimdNextZeroAux N data.length data 0

/-- Architectural semantics of
`_mm_cmpestri(zero, 1, v, 16, _SIDD_CMP_EQUAL_ORDERED)` applied to a 16-byte
block in `next_zero_simd_128.rs`: the index of the first occurrence of the
one-byte needle `0` in the block, or 16 when the block contains no zero byte.
(Hardware intrinsic, modelled from its documented equal-ordered behaviour,
which the repository probes in its `simd` test.) -/
def mmCmpestriZero (block : List Nat) : Nat :=
  (next_zero_index block).getD 16

/-- Chunk loop of `SimdBlocks16::next_zero_index` (`next_zero_simd_128.rs`):
`data.chunks(16)` yields full 16-byte chunks, scanned with the SSE4.2
string-compare intrinsic, and possibly one final short chunk, scanned byte by
byte (that branch `continue`s, and since only the last chunk can be short the
loop then terminates).  The first argument is structural-recursion fuel:
the caller passes `data.length`, which never runs out because every full
chunk consumes 16 bytes (the fuel-exhausted clause is only ever reached
with an empty `data`, where it behaves like the remainder loop). -/
def simd16NextZeroAux : Nat → List Nat → Nat → Option Nat
  | 0, data, nonzero_bytes => remainderScan data nonzero_bytes
  | fuel + 1, data, nonzero_bytes =>
    if data.length < 16 then remainderScan data nonzero_bytes
    else
      let res := mmCmpestriZero (data.take 16)
      if res < 16 then some (nonzero_bytes + res)
      else simd16NextZeroAux fuel (data.drop 16) (nonzero_bytes + res)

/-- `SimdBlocks16::next_zero_index` from `next_zero_simd_128.rs`. -/
def SimdBlocks16_next_zero_index (data : List Nat) : Option Nat :=
  simd16NextZeroAux data.length data 0

/-! ## Specification lemmas for the scalar scan -/

theorem next_zero_index_some_spec (l : List Nat) (i : Nat)
    (h : next_zero_index l = some i) :
    i < l.length ∧ l.getD i 1 = 0 ∧ ∀ j, j < i → l.getD j 1 ≠ 0 := by
  induction l generalizing i with
  | nil => simp [next_zero_index] at h
  | cons b t ih =>
    by_cases hb : b = 0
    · simp [next_zero_index, hb] at h
      subst h
      simp [hb]
    · simp [next_zero_index, hb] at h
      obtain ⟨j, hj, rfl⟩ := h
      obtain ⟨h1, h2, h3⟩ := ih j hj
      refine ⟨by simpa using h1, by simpa using h2, ?_⟩
      intro k hk
      cases k with
      | zero => simpa using hb
      | succ k =>
        simpa using h3 k (by omega)

theorem next_zero_index_none_iff (l : List Nat) :
    next_zero_index l = none ↔ ∀ b ∈ l, b ≠ 0 := by
  induction l with
  | nil => simp [next_zero_index]
  | cons b t ih =>
    by_cases hb : b = 0
    · simp [next_zero_index, hb]
    · simp [next_zero_index, hb, ih]

theorem next_zero_index_append (a b : List Nat) :
    next_zero_index (a ++ b) =
      match next_zero_index a with
      | some i => some i
      | none => (next_zero_index b).map (· + a.length) := by
  induction a with
  | nil =>
    simp only [List.nil_append, next_zero_index, List.length_nil]
    cases next_zero_index b <;> simp
  | cons x t ih =>
    by_cases hx : x = 0
    · simp [next_zero_index, hx]
    · cases h : next_zero_index t with
      | some i =>
        simp [next_zero_index, hx, ih, h]
      | none =>
        cases hb : next_zero_index b with
        | some j =>
          simp [next_zero_index, hx, ih, h, hb, Option.map_map]
          omega
        | none => simp [next_zero_index, hx, ih, h, hb]

theorem remainderScan_eq (l : List Nat) (acc : Nat) :
    remainderScan l acc = (next_zero_index l).map (· + acc) := by
  induction l generalizing acc with
  | nil => simp [remainderScan, next_zero_index]
  | cons b t ih =>
    by_cases hb : b = 0
    · simp [remainderScan, next_zero_index, hb]
    · simp [remainderScan, next_zero_index, hb, ih, Option.map_map]
      cases h : next_zero_index t with
      | some i => simp; omega
      | none => simp

theorem remainderScanU32_eq (l : List Nat) :
    ∀ acc : Nat, acc < u32size →
      remainderScanU32 l acc =
        (next_zero_index l).map (fun i => (acc + i) % u32size) := by
  induction l with
  | nil => intro acc _; simp [remainderScanU32, next_zero_index]
  | cons b t ih =>
    intro acc hacc
    by_cases hb : b = 0
    · simp [remainderScanU32, next_zero_index, hb, Nat.mod_eq_of_lt hacc]
    · rw [show remainderScanU32 (b :: t) acc =
          remainderScanU32 t ((acc + 1) % u32size) by
        simp [remainderScanU32, hb]]
      rw [ih ((acc + 1) % u32size)
        (Nat.mod_lt _ (by norm_num [u32size] : 0 < u32size))]
      cases h : next_zero_index t with
      | none => simp [next_zero_index, hb, h]
      | some i =>
        simp only [next_zero_index, if_neg hb, h, Option.map_some',
          Option.map_map, Function.comp]
        rw [Nat.mod_add_mod, show acc + 1 + i = acc + (i + 1) from by omega]

/-! ## The bitmask path computes the first zero lane -/

theorem first_zero_in_vector_eq (v : List Nat) :
    first_zero_in_vector v.length v = (next_zero_index v).getD v.length := by
  induction v with
  | nil => simp [first_zero_in_vector, wordTrailingZeros, zeroBitmask, next_zero_index]
  | cons b t ih =>
    by_cases hb : b = 0
    · simp [first_zero_in_vector, wordTrailingZeros, zeroBitmask, next_zero_index, hb]
    · have hmask : zeroBitmask (b :: t) = 2 * zeroBitmask t := by
        simp [zeroBitmask, hb]
      have hmod : (2 * zeroBitmask t) % 2 = 0 := by omega
      simp only [first_zero_in_vector, List.length_cons, hmask, wordTrailingZeros, hmod]
      simp only [first_zero_in_vector] at ih
      have h2 : 2 * zeroBitmask t / 2 = zeroBitmask t := by omega
      simp only [if_neg (by omega : ¬(0 : Nat) = 1), h2, ih]
      simp only [next_zero_index, if_neg hb]
      cases h : next_zero_index t with
      | some i => simp
      | none => simp

/-! ## The chunked scanners agree with the scalar scan -/

theorem stdSimdNextZeroAux_eq_bounded (N fuel : Nat) :
    ∀ data : List Nat, ∀ acc : Nat, data.length ≤ fuel → acc < u32size →
      stdSimdNextZeroAux N fuel data acc =
        (next_zero_index data).map (fun i => (acc + i) % u32size) := by
  induction fuel with
  | zero =>
    intro data acc hlen _
    have hdata : data = [] := List.eq_nil_of_length_eq_zero (by omega)
    subst hdata
    simp [stdSimdNextZeroAux, remainderScanU32, next_zero_index]
  | succ k ih =>
    intro data acc hlen hacc
    rw [stdSimdNextZeroAux]
    by_cases h : N = 0 ∨ data.length < N
    · rw [if_pos h, remainderScanU32_eq data acc hacc]
    · rw [if_neg h]
      push_neg at h
      obtain ⟨hN0, hNle⟩ := h
      have hNpos : 0 < N := Nat.pos_of_ne_zero hN0
      have htlen : (data.take N).length = N := by
        simp [List.length_take]
        omega
      have hfz : first_zero_in_vector N (data.take N) =
          (next_zero_index (data.take N)).getD N := by
        have hh := first_zero_in_vector_eq (data.take N)
        rwa [htlen] at hh
      have hsplit := next_zero_index_append (data.take N) (data.drop N)
      rw [List.take_append_drop] at hsplit
      cases hz : next_zero_index (data.take N) with
      | some i =>
        have hi : i < N := by
          have hsp := (next_zero_index_some_spec _ _ hz).1
          omega
        simp only [hz] at hsplit
        simp only [hfz, hz, Option.getD_some, if_pos hi, hsplit,
          Option.map_some']
      | none =>
        simp only [hz] at hsplit
        simp only [hfz, hz, Option.getD_none, if_neg (lt_irrefl N)]
        have hrec := ih (data.drop N) ((acc + N) % u32size)
          (by simp [List.length_drop]; omega)
          (Nat.mod_lt _ (by norm_num [u32size] : 0 < u32size))
        rw [hrec, hsplit, htlen]
        cases next_zero_index (data.drop N) with
        | none => rfl
        | some j =>
          simp only [Option.map_some', Option.map_map, Function.comp]
          rw [Nat.mod_add_mod, show acc + N + j = acc + (j + N) from by omega]

theorem simd16NextZeroAux_eq_bounded (fuel : Nat) :
    ∀ data : List Nat, ∀ acc : Nat, data.length ≤ fuel →
      simd16NextZeroAux fuel data acc = (next_zero_index data).map (· + acc) := by
  induction fuel with
  | zero =>
    intro data acc hlen
    have hdata : data = [] := List.eq_nil_of_length_eq_zero (by omega)
    subst hdata
    simp [simd16NextZeroAux, remainderScan_eq, next_zero_index]
  | succ k ih =>
    intro data acc hlen
    rw [simd16NextZeroAux]
    by_cases h : data.length < 16
    · rw [if_pos h, remainderScan_eq]
    · rw [if_neg h]
      push_neg at h
      have htlen : (data.take 16).length = 16 := by
        simp [List.length_take]
        omega
      have hsplit := next_zero_index_append (data.take 16) (data.drop 16)
      rw [List.take_append_drop] at hsplit
      cases hz : next_zero_index (data.take 16) with
      | some i =>
        have hi : i < 16 := by
          have hsp := (next_zero_index_some_spec _ _ hz).1
          omega
        simp only [hz] at hsplit
        simp only [mmCmpestriZero, hz, Option.getD_some, if_pos hi, hsplit, Option.map_some]
        simp
        omega
      | none =>
        simp only [hz] at hsplit
        simp only [mmCmpestriZero, hz, Option.getD_none, if_neg (lt_irrefl 16)]
        have hrec := ih (data.drop 16) (acc + 16) (by simp [List.length_drop]; omega)
        rw [hrec, hsplit, htlen]
        cases next_zero_index (data.drop 16) with
        | none => simp
        | some j =>
          simp
          omega

/-- What `SimdBlocksGeneric::<N>::next_zero_index` actually computes on an
arbitrary window: the scalar first-zero index reduced modulo `2^32`, because
its `nonzero_bytes` accumulator is a `u32`. -/
theorem SimdBlocksGeneric_next_zero_index_eq (N : Nat) (data : List Nat) :
    SimdBlocksGeneric_next_zero_index N data =
      (next_zero_index data).map (fun i => i % u32size) := by
  rw [SimdBlocksGeneric_next_zero_index,
    stdSimdNextZeroAux_eq_bounded N data.length data 0 le_rfl
      (by norm_num [u32size] : (0 : Nat) < u32size)]
  cases next_zero_index data <;> simp

/-- On windows of at most `2^32` bytes the `u32` accumulator cannot wrap, and
the generic scanner agrees with the scalar scan. -/
theorem SimdBlocksGeneric_next_zero_index_eq_of_le (N : Nat) (data : List Nat)
    (h : data.length ≤ u32size) :
    SimdBlocksGeneric_next_zero_index N data = next_zero_index data := by
  rw [SimdBlocksGeneric_next_zero_index_eq]
  cases hz : next_zero_index data with
  | none => rfl
  | some i =>
    have hi := (next_zero_index_some_spec data i hz).1
    simp [Nat.mod_eq_of_lt (by omega : i < u32size)]

/-- The wrapped index `i % 2^32` does not depend on the vector width, so all
`SimdBlocksGeneric` instantiations agree with each other on every window. -/
theorem SimdBlocksGeneric_next_zero_index_congr (N M : Nat) (data : List Nat) :
    SimdBlocksGeneric_next_zero_index N data =
      SimdBlocksGeneric_next_zero_index M data := by
  rw [SimdBlocksGeneric_next_zero_index_eq, SimdBlocksGeneric_next_zero_index_eq]

theorem SimdBlocks16_next_zero_index_eq (data : List Nat) :
    SimdBlocks16_next_zero_index data = next_zero_index data := by
  rw [SimdBlocks16_next_zero_index,
    simd16NextZeroAux_eq_bounded data.length data 0 le_rfl]
  cases next_zero_index data <;> simp

/-! ## Claims C6 and C10 -/

/-- C6 (corrected): `SimdBlocks16::next_zero_index`, whose byte counter is a
`usize`, agrees with the scalar linear scan on every byte window `w` of any
length — empty, length 1 holding a zero, length not a multiple of the vector
width, a zero on a chunk boundary.  `SimdBlocksGeneric::<N>::next_zero_index`
for `N ∈ {8, 16, 32}` accumulates its offset in a `u32`, so it agrees with
the scalar scan on every window of at most `2^32` bytes; on an arbitrary
window it returns the scalar first-zero index reduced modulo `2^32` (the
release-build wrap; a debug build panics at the overflowing addition
instead), so agreement on longer windows fails — see the counterexample
theorem. -/
theorem claim_C6_simd_finders_agree_with_scalar :
    (∀ w : List Nat, SimdBlocks16_next_zero_index w = next_zero_index w) ∧
    (∀ N : Nat, (N = 8 ∨ N = 16 ∨ N = 32) → ∀ w : List Nat,
      w.length ≤ u32size →
      SimdBlocksGeneric_next_zero_index N w = next_zero_index w) ∧
    (∀ N : Nat, (N = 8 ∨ N = 16 ∨ N = 32) → ∀ w : List Nat,
      SimdBlocksGeneric_next_zero_index N w =
        (next_zero_index w).map (fun i => i % u32size)) :=
  ⟨SimdBlocks16_next_zero_index_eq,
   fun N _ w hw => SimdBlocksGeneric_next_zero_index_eq_of_le N w hw,
   fun N _ w => SimdBlocksGeneric_next_zero_index_eq N w⟩

/-- Witness for C6 at a concrete window: the 8-lane generic scanner agrees
with the scalar scan on `[5, 0, 7]`. -/
theorem claim_C6_witness :
    SimdBlocksGeneric_next_zero_index 8 [5, 0, 7] = next_zero_index [5, 0, 7] :=
  claim_C6_simd_finders_agree_with_scalar.2.1 8 (Or.inl rfl) [5, 0, 7]
    (by decide)

/-- C10: for the lane counts `N ∈ {8, 16, 32}` used by the crate and any
`N`-lane byte vector `v`, `first_zero_in_vector` returns the index of the
lowest lane of `v` that is zero, and exactly `N` when no lane is zero (the
trailing-zero count of the all-zero bitmask is its bit width, which equals
the lane count), so the caller's `index < N` test distinguishes found from
not-found. -/
theorem claim_C10_first_zero_in_vector_spec (N : Nat) (v : List Nat)
    (_hN : N = 8 ∨ N = 16 ∨ N = 32) (hv : v.length = N) :
    ((∀ b ∈ v, b ≠ 0) → first_zero_in_vector N v = N) ∧
    (∀ i, next_zero_index v = some i →
      first_zero_in_vector N v = i ∧ i < N ∧ v.getD i 1 = 0 ∧
        ∀ j, j < i → v.getD j 1 ≠ 0) := by
  have hbase := first_zero_in_vector_eq v
  rw [hv] at hbase
  constructor
  · intro hall
    rw [hbase, (next_zero_index_none_iff v).mpr hall]
    rfl
  · intro i hi
    obtain ⟨h1, h2, h3⟩ := next_zero_index_some_spec v i hi
    rw [hbase, hi]
    exact ⟨rfl, by omega, h2, h3⟩

/-- Witness for C10 at a concrete vector: lane 1 is the first zero lane of
an 8-lane vector, and an all-non-zero vector yields lane count 8. -/
theorem claim_C10_witness :
    first_zero_in_vector 8 [5, 0, 7, 0, 9, 9, 9, 9] = 1 ∧
    first_zero_in_vector 8 [1, 2, 3, 4, 5, 6, 7, 8] = 8 := by
  constructor
  · have h := (claim_C10_first_zero_in_vector_spec 8 [5, 0, 7, 0, 9, 9, 9, 9]
      (Or.inl rfl) (by decide)).2 1 (by decide)
    exact h.1
  · exact (claim_C10_first_zero_in_vector_spec 8 [1, 2, 3, 4, 5, 6, 7, 8]
      (Or.inl rfl) (by decide)).1 (by decide)

/-! ## Block iterator (`block_iter.rs`) -/

/-- `BlockIter` (`block_iter.rs`) driven to exhaustion, collecting the
yielded blocks in order.  The iterator is parameterized by the zero-finding
strategy `zf` (the `NextZeroIndex` type parameter used by `lib.rs`;
`block_iter.rs` itself hardwires the 16-byte SIMD scanner, which computes
the same function by `claim_C6`).  `processed` is the cursor.  The `fuel`
argument only makes the recursion structural: every call site passes
`input_data.length + 2`, which suffices because each pull advances
`processed` by at least one whenever `max_block_size ≥ 1` or the input is
empty — the only configurations the crate uses. -/
def blockIterGo (zf : List Nat → Option Nat) (max_block_size : Nat)
    (input_data : List Nat) : Nat → Nat → List (List Nat)
  | 0, _ => []
  | fuel + 1, processed =>
    if processed = input_data.length + 1 then []
    else if processed = input_data.length then
      [] :: blockIterGo zf max_block_size input_data fuel (processed + 1)
    else
      let start_index := processed
      let upper_bound := min (start_index + max_block_size) input_data.length
      match zf ((input_data.drop start_index).take (upper_bound - start_index)) with
      | some i =>
        ((input_data.drop start_index).take i) ::
          blockIterGo zf max_block_size input_data fuel (processed + i + 1)
      | none =>
        if upper_bound = input_data.length then
          (input_data.drop start_index) ::
            blockIterGo zf max_block_size input_data fuel (input_data.length + 1)
        else
          ((input_data.drop start_index).take max_block_size) ::
            blockIterGo zf max_block_size input_data fuel (processed + max_block_size)

/-- The list of blocks yielded by `BlockIter::new(input_data, max_block_size)`. -/
def blockIterList (zf : List Nat → Option Nat) (max_block_size : Nat)
    (input_data : List Nat) : List (List Nat) :=
  blockIterGo zf max_block_size input_data (input_data.length + 2) 0

/-! ## Encoders (`lib.rs`) -/

/-- `encoded_size_upper_bound` from `lib.rs`:
`input_size + (input_size + 254 - 1) / 254`. -/
def encoded_size_upper_bound (input_size : Nat) : Nat :=
  input_size + (input_size + 254 - 1) / 254

/-- The `Method` enumeration from `lib.rs`. -/
inductive Method
  | Trivial
  | Crazy
  | Simd16
  | StdSimd8
  | StdSimd16
  | StdSimd32
  | StdSimd8TwoStage
  | StdSimd16TwoStage
  | StdSimd32TwoStage
deriving DecidableEq

/-- Replay `(index, value)` write events on a buffer.  (`List.set` ignores
out-of-range indices, while the Rust indexing would panic; the bounds
theorems below make the in-range property explicit where it holds and the
out-of-range write of the trivial encoder explicit where it does not.) -/
def applyWrites (buf : List Nat) (ws : List (Nat × Nat)) : List Nat :=
  ws.foldl (fun b w => b.set w.1 w.2) buf

/-- One iteration of the loop of `cobs_encode_to_trivial` (`lib.rs`): the
state is (write events so far, `written`, `current_block_length`); the loop
runs over the input bytes followed by one appended zero. -/
def trivialStep (st : List (Nat × Nat) × Nat × Nat) (b : Nat) :
    List (Nat × Nat) × Nat × Nat :=
  let ws := st.1
  let written := if st.2.2 = 0 then st.2.1 + 1 else st.2.1
  let cbl := st.2.2
  if b = 0 then
    (ws ++ [(written - 1 - cbl, cbl + 1)], written, 0)
  else
    let ws1 := ws ++ [(written, b)]
    let written1 := written + 1
    let cbl1 := cbl + 1
    if cbl1 = 254 then (ws1 ++ [(written1 - 1 - 254, 255)], written1, 0)
    else (ws1, written1, cbl1)

/-- `cobs_encode_to_trivial` from `lib.rs`, as write events plus the
returned count. -/
def cobs_encode_to_trivial (input : List Nat) : List (Nat × Nat) × Nat :=
  let st := (input ++ [0]).foldl trivialStep ([], 0, 0)
  (st.1, st.2.1)

/-- One iteration of the loop of `cobs_encode_to_vec` (`lib.rs`): state is
the vector built so far plus `current_block_length`; `List.set` models the
back-fill `res[overhead_byte_index] = ...`. -/
def vecStep (st : List Nat × Nat) (b : Nat) : List Nat × Nat :=
  let res := if st.2 = 0 then st.1 ++ [0] else st.1
  let cbl := st.2
  if b = 0 then
    (res.set (res.length - 1 - cbl) (cbl + 1), 0)
  else
    let res1 := res ++ [b]
    let cbl1 := cbl + 1
    if cbl1 = 254 then (res1.set (res1.length - 1 - 254) 255, 0)
    else (res1, cbl1)

/-- `cobs_encode_to_vec` from `lib.rs`. -/
def cobs_encode_to_vec (input : List Nat) : List Nat :=
  ((input ++ [0]).foldl vecStep ([], 0)).1

/-- The pointer-walking loop of `cobs_encode_to_c` (`lib.rs`), re-expressed
with indices into the output buffer: `e` is the write cursor (`encode`),
`cp` the index of the pending code byte (`codep`), `code` the running code
value.  The `rest ≠ []` test models the `length != 0` check (whether bytes
remain after the current one). -/
def crazyGo : List Nat → List (Nat × Nat) → Nat → Nat → Nat →
    List (Nat × Nat) × Nat × Nat × Nat
  | [], ws, e, cp, code => (ws, e, cp, code)
  | b :: rest, ws, e, cp, code =>
    let ws1 := if b ≠ 0 then ws ++ [(e, b)] else ws
    let e1 := if b ≠ 0 then e + 1 else e
    let code1 := if b ≠ 0 then code + 1 else code
    if b = 0 ∨ code1 = 255 then
      crazyGo rest (ws1 ++ [(cp, code1)])
        (if b = 0 ∨ rest ≠ [] then e1 + 1 else e1) e1 1
    else
      crazyGo rest ws1 e1 cp code1

/-- `cobs_encode_to_c` from `lib.rs`: `assert!(!input.is_empty())` is
modelled as `none` (= panic); otherwise the translated loop runs with
`encode = 1`, `codep = 0`, `code = 1` and the final `*codep = code` write is
appended.  The result is the write events plus the returned count
`encode.offset_from(&output[0])`. -/
def cobs_encode_to_c (input : List Nat) : Option (List (Nat × Nat) × Nat) :=
  if input = [] then none
  else
    let r := crazyGo input [] 1 0 1
    some (r.1 ++ [(r.2.2.1, r.2.2.2)], r.2.1)

/-- Body of the block-serialization loops in `cobs_encode_to_opt`,
`cobs_encode_to_std` and `cobs_encode_to_chained_iter` (`lib.rs`):
`output[out_idx] = block.len() + 1` followed by the `copy_from_slice` into
`output[out_idx + 1 ..]`, advancing `out_idx`. -/
def blockWriteStep (st : List (Nat × Nat) × Nat) (block : List Nat) :
    List (Nat × Nat) × Nat :=
  let out_idx := st.2
  (st.1 ++ [(out_idx, block.length + 1)] ++
    block.enum.map (fun p => (out_idx + 1 + p.1, p.2)),
   out_idx + block.length + 1)

/-- `cobs_encode_to_opt` from `lib.rs` (`Method::Simd16`). -/
def cobs_encode_to_opt (input : List Nat) : List (Nat × Nat) × Nat :=
  (blockIterList SimdBlocks16_next_zero_index 254 input).foldl blockWriteStep ([], 0)

/-- `cobs_encode_to_std::<N>` from `lib.rs`.  The source body uses
`BlockIter::<SimdBlocksGeneric<32>>` regardless of `N`, so the parameter is
unused there; it is kept for fidelity. -/
def cobs_encode_to_std (_N : Nat) (input : List Nat) : List (Nat × Nat) × Nat :=
  (blockIterList (SimdBlocksGeneric_next_zero_index 32) 254 input).foldl blockWriteStep ([], 0)

/-- `slice::chunks(n)`: successive chunks of `n` elements, the last possibly
shorter; the empty slice yields no chunks.  Structural-recursion fuel as
first argument; `chunksList` passes the slice length, which suffices
because every step consumes at least one element. -/
def chunksListF : Nat → Nat → List Nat → List (List Nat)
  | 0, _, _ => []
  | fuel + 1, n, l =>
    if l = [] ∨ n = 0 then []
    else l.take n :: chunksListF fuel n (l.drop n)

/-- `slice::chunks(n)` of a slice `l`. -/
def chunksList (n : Nat) (l : List Nat) : List (List Nat) :=
  chunksListF l.length n l

/-- Body of the outer loop of `cobs_encode_to_chained_iter` (`lib.rs`): a
non-empty large block is re-chunked into blocks of at most 254 bytes; the
empty large block is written directly (the "manual flat_map" special case
preserving empty blocks). -/
def chainedIterStep (st : List (Nat × Nat) × Nat) (large_block : List Nat) :
    List (Nat × Nat) × Nat :=
  if large_block ≠ [] then
    (chunksList 254 large_block).foldl blockWriteStep st
  else
    blockWriteStep st large_block

/-- `cobs_encode_to_chained_iter::<ZeroMethod>` from `lib.rs`: split at every
zero first (`max_block_size = input.len()`), then re-chunk. -/
def cobs_encode_to_chained_iter (zf : List Nat → Option Nat)
    (input : List Nat) : List (Nat × Nat) × Nat :=
  (blockIterList zf input.length input).foldl chainedIterStep ([], 0)

/-- `cobs_encode_to` from `lib.rs`: dispatch on `Method`.  All variants are
modelled as write events plus returned count; `Method::Crazy` is optional
because it asserts a non-empty input. -/
def cobs_encode_to (input : List Nat) (method : Method) :
    Option (List (Nat × Nat) × Nat) :=
  match method with
  | .Trivial => some (cobs_encode_to_trivial input)
  | .Simd16 => some (cobs_encode_to_opt input)
  | .Crazy => cobs_encode_to_c input
  | .StdSimd8 => some (cobs_encode_to_std 8 input)
  | .StdSimd16 => some (cobs_encode_to_std 16 input)
  | .StdSimd32 => some (cobs_encode_to_std 32 input)
  | .StdSimd8TwoStage =>
    some (cobs_encode_to_chained_iter (SimdBlocksGeneric_next_zero_index 8) input)
  | .StdSimd16TwoStage =>
    some (cobs_encode_to_chained_iter (SimdBlocksGeneric_next_zero_index 16) input)
  | .StdSimd32TwoStage =>
    some (cobs_encode_to_chained_iter (SimdBlocksGeneric_next_zero_index 32) input)

/-! ## Decoder (`lib.rs`) -/

/-- The record loop of `cobs_decode` (`lib.rs`) with `res` as the
accumulated output.  A `none` result models a panic: either
`it.next().unwrap()` on exhausted input (the length byte claims more
payload than remains), or the debug-mode underflow panic of
`overhead_byte - 1` when the length byte is zero.  The separator test
models `overhead_byte != 255 && it.len() > 0`.
The first argument is structural-recursion fuel: `cobs_decode` passes the
input length, which suffices because every record consumes at least its
length byte (the fuel-exhausted clause is only ever reached with an
exhausted input). -/
def cobsDecodeGo : Nat → List Nat → List Nat → Option (List Nat)
  | _, res, [] => some res
  | 0, res, _ :: _ => some res
  | fuel + 1, res, overhead_byte :: rest =>
    if overhead_byte = 0 then none
    else if rest.length < overhead_byte - 1 then none
    else
      cobsDecodeGo fuel
        (res ++ rest.take (overhead_byte - 1) ++
          (if overhead_byte ≠ 255 ∧ overhead_byte - 1 < rest.length then [0] else []))
        (rest.drop (overhead_byte - 1))

/-- `cobs_decode` from `lib.rs`. -/
def cobs_decode (input : List Nat) : Option (List Nat) :=
  cobsDecodeGo input.length [] input

/-! ## Reference forms of the encoded stream -/

/-- Reference recursive form of the encoder implemented by
`cobs_encode_to_vec` and `cobs_encode_to_trivial` (the equality is proved
below): emit the run up to the first zero as one record, capping runs at
254 bytes; because the loop appends one zero to the input, a trailing run —
even an empty one — always emits a final record. -/
def cobsEnc (x : List Nat) : List Nat :=
  match h : next_zero_index x with
  | some i =>
    if i < 254 then (i + 1) :: (x.take i ++ cobsEnc (x.drop (i + 1)))
    else 255 :: (x.take 254 ++ cobsEnc (x.drop 254))
  | none =>
    if 254 ≤ x.length then 255 :: (x.take 254 ++ cobsEnc (x.drop 254))
    else (x.length + 1) :: x
termination_by x.length
decreasing_by
  all_goals simp only [List.length_drop]
  · have hsp := (next_zero_index_some_spec x i h).1
    omega
  · have hsp := (next_zero_index_some_spec x i h).1
    omega
  · omega

/-- Reference recursive form of what the block-iterator encoders emit
(proved below): like `cobsEnc`, except that a trailing run that reaches the
end of the input inside the 254-byte window is emitted as one final record
with no extra empty record — this is the `upper_bound == len` branch of
`BlockIter::next`, which skips the pending synthetic empty block. -/
def blockEnc (x : List Nat) : List Nat :=
  match h : next_zero_index (x.take 254) with
  | some i => (i + 1) :: (x.take i ++ blockEnc (x.drop (i + 1)))
  | none =>
    if x.length ≤ 254 then (x.length + 1) :: x
    else 255 :: (x.take 254 ++ blockEnc (x.drop 254))
termination_by x.length
decreasing_by
  all_goals simp only [List.length_drop]
  · have hsp := (next_zero_index_some_spec _ _ h).1
    simp only [List.length_take] at hsp
    omega
  · omega

/-- Serialization of a list of blocks into COBS records (one length byte
`block.len() + 1` followed by the block). -/
def serializeBlocks (blocks : List (List Nat)) : List Nat :=
  (blocks.map (fun b => (b.length + 1) :: b)).flatten

/-- A run length is harmless when it is zero or not a multiple of 254. -/
def runLenOK (n : Nat) : Bool :=
  decide (n = 0) || decide (n % 254 ≠ 0)

/-- Walk the input byte by byte tracking the length of the current run of
non-zero bytes; `true` when every maximal run of non-zero bytes (interior
runs, delimited by zeros, and the trailing run) has a harmless length. -/
def runsOKGo : Nat → List Nat → Bool
  | cur, [] => runLenOK cur
  | cur, b :: t => if b = 0 then runLenOK cur && runsOKGo 0 t else runsOKGo (cur + 1) t

/-- Every maximal run of consecutive non-zero bytes of `x` has length zero
or length not divisible by 254. -/
def runsOKB (x : List Nat) : Bool :=
  runsOKGo 0 x

/-- Walk the input from a running block length `cbl`; `true` exactly when
the final input byte is non-zero and completes a full 254-byte encoder
block (the configuration on which `cobs_encode_to_trivial` emits one more
record than the other encoders). -/
def capEndGo : Nat → List Nat → Bool
  | _, [] => false
  | cbl, b :: rest =>
    if b = 0 then capEndGo 0 rest
    else if cbl + 1 = 254 then
      if rest = [] then true else capEndGo 0 rest
    else capEndGo (cbl + 1) rest

/-- The record walk of the decoder as a pure malformedness test: `true`
when some length byte claims more payload bytes than remain after it (or a
length byte is zero, on which the decoder's `overhead_byte - 1` underflows).
Fuel as in `cobsDecodeGo`. -/
def truncatedGo : Nat → List Nat → Bool
  | _, [] => false
  | 0, _ :: _ => false
  | fuel + 1, overhead_byte :: rest =>
    if overhead_byte = 0 then true
    else if rest.length < overhead_byte - 1 then true
    else truncatedGo fuel (rest.drop (overhead_byte - 1))

/-- Some record of `input` is truncated: its length byte claims more
payload than remains (or is zero). -/
def hasTruncatedRecord (input : List Nat) : Bool :=
  truncatedGo input.length input

/-! ## Elementary facts about runs and `cobsEnc` -/

theorem next_zero_index_take_nonzero (x : List Nat) (i : Nat)
    (h : next_zero_index x = some i) : ∀ b ∈ x.take i, b ≠ 0 := by
  induction x generalizing i with
  | nil => simp [next_zero_index] at h
  | cons a t ih =>
    by_cases ha : a = 0
    · simp [next_zero_index, ha] at h
      subst h
      simp
    · simp [next_zero_index, ha] at h
      obtain ⟨j, hj, rfl⟩ := h
      intro b hb
      simp [List.take_succ_cons] at hb
      rcases hb with rfl | hb
      · exact ha
      · exact ih j hj b hb

theorem next_zero_index_drop_zero (x : List Nat) (i : Nat)
    (h : next_zero_index x = some i) : x = x.take i ++ 0 :: x.drop (i + 1) := by
  induction x generalizing i with
  | nil => simp [next_zero_index] at h
  | cons a t ih =>
    by_cases ha : a = 0
    · simp [next_zero_index, ha] at h
      subst h
      simp [ha]
    · simp [next_zero_index, ha] at h
      obtain ⟨j, hj, rfl⟩ := h
      simpa [List.take_succ_cons, List.drop_succ_cons] using ih j hj

theorem cobsEnc_ne_nil (x : List Nat) : cobsEnc x ≠ [] := by
  rw [cobsEnc]
  split <;> split <;> simp

theorem cobsEnc_mem_pos_bounded (n : Nat) :
    ∀ x : List Nat, x.length ≤ n → ∀ b ∈ cobsEnc x, 1 ≤ b := by
  induction n with
  | zero =>
    intro x hlen b hb
    have hx : x = [] := List.eq_nil_of_length_eq_zero (by omega)
    subst hx
    rw [cobsEnc] at hb
    simp [next_zero_index] at hb
    omega
  | succ n ih =>
  intro x hlen b hb
  rw [cobsEnc] at hb
  split at hb
  · rename_i i hz
    have hi := (next_zero_index_some_spec x i hz).1
    split at hb
    · rename_i hsmall
      simp at hb
      rcases hb with rfl | hb | hb
      · omega
      · have hnz := next_zero_index_take_nonzero x i hz b hb
        omega
      · exact ih (x.drop (i + 1)) (by simp; omega) b hb
    · rename_i hsmall
      simp at hb
      rcases hb with rfl | hb | hb
      · omega
      · have hmem : b ∈ x.take i := by
          have h254 : x.take 254 = (x.take i).take 254 := by
            rw [List.take_take]
            congr 1
            omega
          rw [h254] at hb
          exact List.take_subset _ _ hb
        have hnz := next_zero_index_take_nonzero x i hz b hmem
        omega
      · exact ih (x.drop 254) (by simp; omega) b hb
  · rename_i hz
    split at hb
    · rename_i hlen254
      simp at hb
      rcases hb with rfl | hb | hb
      · omega
      · have hnz := (next_zero_index_none_iff x).mp hz b (List.take_subset _ _ hb)
        omega
      · exact ih (x.drop 254) (by simp; omega) b hb
    · simp at hb
      rcases hb with rfl | hb
      · omega
      · have hnz := (next_zero_index_none_iff x).mp hz b hb
        omega

theorem cobsEnc_mem_pos (x : List Nat) : ∀ b ∈ cobsEnc x, 1 ≤ b :=
  cobsEnc_mem_pos_bounded x.length x le_rfl

theorem cobsEnc_mem_le_bounded (n : Nat) :
    ∀ x : List Nat, x.length ≤ n → (∀ a ∈ x, a < 256) → ∀ b ∈ cobsEnc x, b ≤ 255 := by
  induction n with
  | zero =>
    intro x hlen hx b hb
    have hxe : x = [] := List.eq_nil_of_length_eq_zero (by omega)
    subst hxe
    rw [cobsEnc] at hb
    simp [next_zero_index] at hb
    omega
  | succ n ih =>
  intro x hlen hx b hb
  rw [cobsEnc] at hb
  split at hb
  · rename_i i hz
    have hi := (next_zero_index_some_spec x i hz).1
    split at hb
    · rename_i hsmall
      simp at hb
      rcases hb with rfl | hb | hb
      · omega
      · have := hx b (List.take_subset _ _ hb)
        omega
      · exact ih (x.drop (i + 1)) (by simp; omega)
          (fun a ha => hx a (List.drop_subset _ _ ha)) b hb
    · rename_i hsmall
      simp at hb
      rcases hb with rfl | hb | hb
      · omega
      · have := hx b (List.take_subset _ _ hb)
        omega
      · exact ih (x.drop 254) (by simp; omega)
          (fun a ha => hx a (List.drop_subset _ _ ha)) b hb
  · rename_i hz
    split at hb
    · rename_i hlen254
      simp at hb
      rcases hb with rfl | hb | hb
      · omega
      · have := hx b (List.take_subset _ _ hb)
        omega
      · exact ih (x.drop 254) (by simp; omega)
          (fun a ha => hx a (List.drop_subset _ _ ha)) b hb
    · rename_i hlen254
      simp at hb
      rcases hb with rfl | hb
      · omega
      · have := hx b hb
        omega

theorem cobsEnc_mem_le (x : List Nat) (hx : ∀ a ∈ x, a < 256) :
    ∀ b ∈ cobsEnc x, b ≤ 255 :=
  cobsEnc_mem_le_bounded x.length x le_rfl hx

/-! ## Decoder lemmas -/

theorem set_append_middle (A acc : List Nat) (z v : Nat) :
    (A ++ z :: acc).set A.length v = A ++ v :: acc := by
  induction A with
  | nil => simp
  | cons a t ih => simp [ih]

theorem cobsDecodeGo_fuel_irrel :
    ∀ f1 f2 res (l : List Nat), l.length ≤ f1 → l.length ≤ f2 →
      cobsDecodeGo f1 res l = cobsDecodeGo f2 res l := by
  intro f1
  induction f1 with
  | zero =>
    intro f2 res l h1 h2
    have hl : l = [] := List.eq_nil_of_length_eq_zero (by omega)
    subst hl
    cases f2 <;> rfl
  | succ k ih =>
    intro f2 res l h1 h2
    cases l with
    | nil => cases f2 <;> rfl
    | cons p rest =>
      simp only [List.length_cons] at h1 h2
      cases f2 with
      | zero => omega
      | succ m =>
        simp only [cobsDecodeGo]
        by_cases hp : p = 0
        · simp [hp]
        · by_cases hr : rest.length < p - 1
          · simp [hp, hr]
          · simp only [if_neg hp, if_neg hr]
            exact ih m _ _ (by simp [List.length_drop]; omega)
              (by simp [List.length_drop]; omega)

theorem cobsDecodeGo_acc (fuel : Nat) :
    ∀ (l res : List Nat),
      cobsDecodeGo fuel res l = (cobsDecodeGo fuel [] l).map (res ++ ·) := by
  induction fuel with
  | zero =>
    intro l res
    cases l <;> simp [cobsDecodeGo]
  | succ k ih =>
    intro l res
    cases l with
    | nil => simp [cobsDecodeGo]
    | cons p rest =>
      by_cases hp : p = 0
      · simp [cobsDecodeGo, hp]
      · by_cases hr : rest.length < p - 1
        · simp [cobsDecodeGo, hp, hr]
        · simp only [cobsDecodeGo, if_neg hp, if_neg hr]
          rw [ih (rest.drop (p - 1))
              (res ++ rest.take (p - 1) ++
                (if p ≠ 255 ∧ p - 1 < rest.length then [0] else [])),
            ih (rest.drop (p - 1))
              ([] ++ rest.take (p - 1) ++
                (if p ≠ 255 ∧ p - 1 < rest.length then [0] else []))]
          cases cobsDecodeGo k [] (rest.drop (p - 1)) with
          | none => simp
          | some out => simp [List.append_assoc]

theorem take_append_len (a b : List Nat) (n : Nat) (h : a.length = n) :
    (a ++ b).take n = a := by
  subst h
  exact List.take_left a b

theorem drop_append_len (a b : List Nat) (n : Nat) (h : a.length = n) :
    (a ++ b).drop n = b := by
  subst h
  exact List.drop_left a b

theorem cobsDecodeGo_cobsEnc_bounded (n : Nat) :
    ∀ x : List Nat, x.length ≤ n → ∀ fuel, (cobsEnc x).length ≤ fuel →
      cobsDecodeGo fuel [] (cobsEnc x) = some x := by
  induction n with
  | zero =>
    intro x hlen fuel hfuel
    have hx : x = [] := List.eq_nil_of_length_eq_zero (by omega)
    subst hx
    have henc : cobsEnc [] = [1] := by
      rw [cobsEnc]
      simp [next_zero_index]
    rw [henc] at hfuel ⊢
    cases fuel with
    | zero => simp at hfuel
    | succ f =>
      simp [cobsDecodeGo]
  | succ n ih =>
    intro x hlen fuel hfuel
    rw [cobsEnc] at hfuel ⊢
    split at hfuel
    · rename_i i hz
      have hi := (next_zero_index_some_spec x i hz).1
      split at hfuel
      · rename_i hsmall
        -- record (i+1) :: (x.take i ++ cobsEnc (x.drop (i+1)))
        rw [if_pos hsmall]
        have hblen : (x.take i).length = i := by
          simp [List.length_take]
          omega
        have hene := cobsEnc_ne_nil (x.drop (i + 1))
        have henlen : 1 ≤ (cobsEnc (x.drop (i + 1))).length :=
          List.length_pos.mpr hene
        simp only [List.length_cons, List.length_append, hblen] at hfuel
        cases fuel with
        | zero => omega
        | succ f =>
          simp only [cobsDecodeGo]
          rw [if_neg (by omega : ¬i + 1 = 0)]
          have hsub : i + 1 - 1 = i := by omega
          rw [hsub]
          have hrlen : (x.take i ++ cobsEnc (x.drop (i + 1))).length =
              i + (cobsEnc (x.drop (i + 1))).length := by
            simp [hblen]
          rw [if_neg (by rw [hrlen]; omega)]
          have htake : (x.take i ++ cobsEnc (x.drop (i + 1))).take i = x.take i :=
            take_append_len _ _ _ hblen
          have hdrop : (x.take i ++ cobsEnc (x.drop (i + 1))).drop i =
              cobsEnc (x.drop (i + 1)) :=
            drop_append_len _ _ _ hblen
          have hsep : (if i + 1 ≠ 255 ∧ i < (x.take i ++ cobsEnc (x.drop (i + 1))).length
              then [0] else []) = [0] := by
            rw [if_pos]
            constructor
            · omega
            · rw [hrlen]
              omega
          rw [htake, hdrop, hsep]
          rw [cobsDecodeGo_acc]
          rw [ih (x.drop (i + 1)) (by simp [List.length_drop]; omega) f (by omega)]
          have hx := next_zero_index_drop_zero x i hz
          simp
          conv_rhs => rw [hx]
      · rename_i hsmall
        -- record 255 :: (x.take 254 ++ cobsEnc (x.drop 254))
        rw [if_neg hsmall]
        have h254 : 254 ≤ x.length := by omega
        have hblen : (x.take 254).length = 254 := by
          simp [List.length_take]
          omega
        simp only [List.length_cons, List.length_append, hblen] at hfuel
        cases fuel with
        | zero => omega
        | succ f =>
          simp only [cobsDecodeGo]
          rw [if_neg (by omega : ¬(255 : Nat) = 0)]
          have hsub : (255 : Nat) - 1 = 254 := by omega
          rw [hsub]
          have hrlen : (x.take 254 ++ cobsEnc (x.drop 254)).length =
              254 + (cobsEnc (x.drop 254)).length := by
            simp [hblen]
          rw [if_neg (by rw [hrlen]; omega)]
          have htake : (x.take 254 ++ cobsEnc (x.drop 254)).take 254 = x.take 254 :=
            take_append_len _ _ _ hblen
          have hdrop : (x.take 254 ++ cobsEnc (x.drop 254)).drop 254 =
              cobsEnc (x.drop 254) :=
            drop_append_len _ _ _ hblen
          have hsep : (if (255 : Nat) ≠ 255 ∧ 254 < (x.take 254 ++ cobsEnc (x.drop 254)).length
              then [0] else []) = [] := by
            rw [if_neg]
            intro hcon
            exact hcon.1 rfl
          rw [htake, hdrop, hsep]
          rw [cobsDecodeGo_acc]
          rw [ih (x.drop 254) (by simp [List.length_drop]; omega) f (by omega)]
          simp
    · rename_i hz
      split at hfuel
      · rename_i h254
        rw [if_pos h254]
        have hblen : (x.take 254).length = 254 := by
          simp [List.length_take]
          omega
        simp only [List.length_cons, List.length_append, hblen] at hfuel
        cases fuel with
        | zero => omega
        | succ f =>
          simp only [cobsDecodeGo]
          rw [if_neg (by omega : ¬(255 : Nat) = 0)]
          have hsub : (255 : Nat) - 1 = 254 := by omega
          rw [hsub]
          have hrlen : (x.take 254 ++ cobsEnc (x.drop 254)).length =
              254 + (cobsEnc (x.drop 254)).length := by
            simp [hblen]
          rw [if_neg (by rw [hrlen]; omega)]
          have htake : (x.take 254 ++ cobsEnc (x.drop 254)).take 254 = x.take 254 :=
            take_append_len _ _ _ hblen
          have hdrop : (x.take 254 ++ cobsEnc (x.drop 254)).drop 254 =
              cobsEnc (x.drop 254) :=
            drop_append_len _ _ _ hblen
          have hsep : (if (255 : Nat) ≠ 255 ∧ 254 < (x.take 254 ++ cobsEnc (x.drop 254)).length
              then [0] else []) = [] := by
            rw [if_neg]
            intro hcon
            exact hcon.1 rfl
          rw [htake, hdrop, hsep]
          rw [cobsDecodeGo_acc]
          rw [ih (x.drop 254) (by simp [List.length_drop]; omega) f (by omega)]
          simp
      · rename_i h254
        rw [if_neg h254]
        simp only [List.length_cons] at hfuel
        cases fuel with
        | zero => omega
        | succ f =>
          simp only [cobsDecodeGo]
          rw [if_neg (by omega : ¬x.length + 1 = 0)]
          have hsub : x.length + 1 - 1 = x.length := by omega
          rw [hsub]
          rw [if_neg (by omega : ¬x.length < x.length)]
          have hsep : (if x.length + 1 ≠ 255 ∧ x.length < x.length then [0] else []) = [] := by
            rw [if_neg]
            intro hcon
            omega
          rw [List.take_length, List.drop_length, hsep]
          cases f <;> simp [cobsDecodeGo]

theorem cobs_decode_cobsEnc (x : List Nat) : cobs_decode (cobsEnc x) = some x :=
  cobsDecodeGo_cobsEnc_bounded x.length x le_rfl _ le_rfl

/-! ## The vector encoder loop builds `cobsEnc` -/

theorem vecStep_boundary_nonzero (A : List Nat) (b : Nat) (hb : b ≠ 0) :
    vecStep (A, 0) b = (A ++ 0 :: [b], 1) := by
  simp [vecStep, hb]

theorem vecStep_boundary_zero (A : List Nat) :
    vecStep (A, 0) 0 = (A ++ [1], 0) := by
  simp [vecStep]

theorem vecStep_mid_zero (A acc : List Nat) (hacc : 1 ≤ acc.length) :
    vecStep (A ++ 0 :: acc, acc.length) 0 = (A ++ (acc.length + 1) :: acc, 0) := by
  simp only [vecStep, if_neg (by omega : ¬acc.length = 0), if_pos rfl]
  have hidx : (A ++ 0 :: acc).length - 1 - acc.length = A.length := by
    simp
  rw [hidx, set_append_middle]
  simp

theorem vecStep_mid_nonzero (A acc : List Nat) (b : Nat) (hb : b ≠ 0)
    (hcbl : 1 ≤ acc.length) (hcap : acc.length + 1 ≤ 253) :
    vecStep (A ++ 0 :: acc, acc.length) b =
      (A ++ 0 :: (acc ++ [b]), acc.length + 1) := by
  simp only [vecStep, if_neg (by omega : ¬acc.length = 0), if_neg hb,
    if_neg (by omega : ¬acc.length + 1 = 254)]
  simp

theorem vecStep_mid_cap (A acc : List Nat) (b : Nat) (hb : b ≠ 0)
    (hacc : acc.length = 253) :
    vecStep (A ++ 0 :: acc, acc.length) b = (A ++ 255 :: (acc ++ [b]), 0) := by
  simp only [vecStep, if_neg (by omega : ¬acc.length = 0), if_neg hb,
    if_pos (by omega : acc.length + 1 = 254)]
  have hform : (A ++ 0 :: acc) ++ [b] = A ++ 0 :: (acc ++ [b]) := by
    simp
  rw [hform]
  have hidx : (A ++ 0 :: (acc ++ [b])).length - 1 - 254 = A.length := by
    simp
    omega
  rw [hidx, set_append_middle]

theorem vec_run (run : List Nat) :
    ∀ (s A acc : List Nat), (∀ b ∈ run, b ≠ 0) → 1 ≤ acc.length →
      acc.length + run.length ≤ 253 →
      List.foldl vecStep (A ++ 0 :: acc, acc.length) (run ++ s) =
      List.foldl vecStep (A ++ 0 :: (acc ++ run), (acc ++ run).length) s := by
  induction run with
  | nil =>
    intro s A acc hnz hacc hcap
    simp
  | cons b run ih =>
    intro s A acc hnz hacc hcap
    have hb : b ≠ 0 := hnz b (by simp)
    simp only [List.cons_append, List.foldl_cons]
    rw [vecStep_mid_nonzero A acc b hb hacc (by simp at hcap; omega)]
    have hlen : acc.length + 1 = (acc ++ [b]).length := by simp
    rw [hlen, ih s A (acc ++ [b]) (fun a ha => hnz a (by simp [ha]))
      (by simp) (by simp at hcap ⊢; omega)]
    simp

theorem vec_run_cap (run : List Nat) :
    ∀ (s A acc : List Nat), (∀ b ∈ run, b ≠ 0) → 1 ≤ acc.length →
      acc.length ≤ 253 → acc.length + run.length = 254 →
      List.foldl vecStep (A ++ 0 :: acc, acc.length) (run ++ s) =
      List.foldl vecStep (A ++ 255 :: (acc ++ run), 0) s := by
  induction run with
  | nil =>
    intro s A acc hnz hacc hle hcap
    simp at hcap
    omega
  | cons b run ih =>
    intro s A acc hnz hacc hle hcap
    have hb : b ≠ 0 := hnz b (by simp)
    cases run with
    | nil =>
      have hacc253 : acc.length = 253 := by simp at hcap; omega
      simp only [List.cons_append, List.nil_append, List.foldl_cons]
      rw [vecStep_mid_cap A acc b hb hacc253]
    | cons c run2 =>
      rw [List.cons_append, List.foldl_cons]
      rw [vecStep_mid_nonzero A acc b hb hacc (by simp at hcap; omega)]
      have hlen : acc.length + 1 = (acc ++ [b]).length := by simp
      rw [hlen, ih s A (acc ++ [b]) (fun a ha => hnz a (by simp [ha]))
        (by simp) (by simp at hcap ⊢; omega) (by simp at hcap ⊢; omega)]
      simp

theorem vec_fold_cap (x A : List Nat)
    (h254 : 254 ≤ x.length) (hnz : ∀ b ∈ x.take 254, b ≠ 0)
    (hrec : ∀ B : List Nat,
      List.foldl vecStep (B, 0) (x.drop 254 ++ [0]) = (B ++ cobsEnc (x.drop 254), 0)) :
    List.foldl vecStep (A, 0) (x ++ [0]) =
      (A ++ 255 :: (x.take 254 ++ cobsEnc (x.drop 254)), 0) := by
  have htl : (x.take 254).length = 254 := by
    simp
    omega
  conv_lhs => rw [← List.take_append_drop 254 x]
  cases hct : x.take 254 with
  | nil =>
    rw [hct] at htl
    simp at htl
  | cons rb run =>
    rw [hct] at htl hnz
    simp only [List.length_cons] at htl
    have hstream : ((rb :: run) ++ x.drop 254) ++ [0] =
        rb :: (run ++ (x.drop 254 ++ [0])) := by
      simp
    rw [hstream, List.foldl_cons,
      vecStep_boundary_nonzero A rb (hnz rb (by simp))]
    have hrun : List.foldl vecStep (A ++ 0 :: [rb], 1) (run ++ (x.drop 254 ++ [0])) =
        List.foldl vecStep (A ++ 255 :: ([rb] ++ run), 0) (x.drop 254 ++ [0]) := by
      have h1 : (1 : Nat) = ([rb] : List Nat).length := by simp
      rw [show ((A ++ 0 :: [rb], 1) : List Nat × Nat) =
          (A ++ 0 :: [rb], ([rb] : List Nat).length) from by simp]
      exact vec_run_cap run (x.drop 254 ++ [0]) A [rb]
        (fun a ha => hnz a (by simp [ha])) (by simp) (by simp) (by simp; omega)
    rw [hrun, hrec (A ++ 255 :: ([rb] ++ run))]
    simp

theorem vec_fold_cobsEnc_bounded (n : Nat) :
    ∀ x : List Nat, x.length ≤ n → ∀ A : List Nat,
      List.foldl vecStep (A, 0) (x ++ [0]) = (A ++ cobsEnc x, 0) := by
  induction n with
  | zero =>
    intro x hlen A
    have hx : x = [] := List.eq_nil_of_length_eq_zero (by omega)
    subst hx
    rw [cobsEnc]
    simp only [next_zero_index, List.length_nil, List.nil_append]
    rw [if_neg (by omega : ¬(254 : Nat) ≤ 0)]
    simpa using vecStep_boundary_zero A
  | succ n ih =>
    intro x hlen A
    rw [cobsEnc]
    split
    · rename_i i hz
      have hi := (next_zero_index_some_spec x i hz).1
      have hxdec := next_zero_index_drop_zero x i hz
      split
      · rename_i hsmall
        rcases Nat.eq_zero_or_pos i with hi0 | hipos
        · subst hi0
          conv_lhs => rw [hxdec]
          simp only [List.take_zero, List.nil_append, List.cons_append, List.foldl_cons]
          rw [vecStep_boundary_zero]
          rw [ih (x.drop 1) (by simp; omega) (A ++ [1])]
          simp
        · have hrun : (x.take i).length = i := by
            simp
            omega
          have hrunnz := next_zero_index_take_nonzero x i hz
          conv_lhs => rw [hxdec]
          cases hct : x.take i with
          | nil =>
            rw [hct] at hrun
            simp at hrun
            omega
          | cons rb run =>
            rw [hct] at hrun hrunnz
            simp only [List.length_cons] at hrun
            have hstream : ((rb :: run) ++ 0 :: x.drop (i + 1)) ++ [0] =
                rb :: (run ++ (0 :: (x.drop (i + 1) ++ [0]))) := by
              simp
            rw [hstream, List.foldl_cons,
              vecStep_boundary_nonzero A rb (hrunnz rb (by simp))]
            have hmid : List.foldl vecStep (A ++ 0 :: [rb], 1)
                (run ++ (0 :: (x.drop (i + 1) ++ [0]))) =
                List.foldl vecStep (A ++ 0 :: ([rb] ++ run), ([rb] ++ run).length)
                  (0 :: (x.drop (i + 1) ++ [0])) := by
              rw [show ((A ++ 0 :: [rb], 1) : List Nat × Nat) =
                  (A ++ 0 :: [rb], ([rb] : List Nat).length) from by simp]
              exact vec_run run _ A [rb] (fun a ha => hrunnz a (by simp [ha]))
                (by simp) (by simp; omega)
            rw [hmid, List.foldl_cons]
            have hacclen : (([rb] ++ run) : List Nat).length = i := by
              simp
              omega
            rw [vecStep_mid_zero A ([rb] ++ run) (by simp)]
            rw [hacclen]
            rw [ih (x.drop (i + 1)) (by simp; omega) (A ++ (i + 1) :: ([rb] ++ run))]
            simp
      · rename_i hsmall
        have h254 : 254 ≤ x.length := by omega
        have hnz : ∀ b ∈ x.take 254, b ≠ 0 := by
          intro b hb
          have h254i : x.take 254 = (x.take i).take 254 := by
            rw [List.take_take]
            congr 1
            omega
          rw [h254i] at hb
          exact next_zero_index_take_nonzero x i hz b (List.take_subset _ _ hb)
        exact vec_fold_cap x A h254 hnz
          (fun B => ih (x.drop 254) (by simp; omega) B)
    · rename_i hz
      split
      · rename_i h254
        have hnz : ∀ b ∈ x.take 254, b ≠ 0 := fun b hb =>
          (next_zero_index_none_iff x).mp hz b (List.take_subset _ _ hb)
        exact vec_fold_cap x A h254 hnz
          (fun B => ih (x.drop 254) (by simp; omega) B)
      · rename_i h254
        have hallnz := (next_zero_index_none_iff x).mp hz
        cases hcx : x with
        | nil =>
          subst hcx
          simp only [List.nil_append, List.foldl_cons, List.foldl_nil]
          rw [vecStep_boundary_zero]
          simp
        | cons rb run =>
          subst hcx
          have hstream : (rb :: run) ++ [0] = rb :: (run ++ [0]) := by simp
          rw [hstream, List.foldl_cons,
            vecStep_boundary_nonzero A rb (hallnz rb (by simp))]
          have hmid : List.foldl vecStep (A ++ 0 :: [rb], 1) (run ++ [0]) =
              List.foldl vecStep (A ++ 0 :: ([rb] ++ run), ([rb] ++ run).length) [0] := by
            rw [show ((A ++ 0 :: [rb], 1) : List Nat × Nat) =
                (A ++ 0 :: [rb], ([rb] : List Nat).length) from by simp]
            exact vec_run run _ A [rb] (fun a ha => hallnz a (by simp [ha]))
              (by simp) (by simp at h254 hlen ⊢; omega)
          rw [hmid, List.foldl_cons]
          rw [vecStep_mid_zero A ([rb] ++ run) (by simp)]
          simp

theorem cobs_encode_to_vec_eq_cobsEnc (x : List Nat) :
    cobs_encode_to_vec x = cobsEnc x := by
  unfold cobs_encode_to_vec
  rw [vec_fold_cobsEnc_bounded x.length x le_rfl []]
  simp

/-! ## Claim C1 -/

/-- C1: for every byte sequence `x` — including the empty sequence and
sequences containing runs of 254 or more non-zero bytes — decoding the
encoding of `x` returns exactly `x`:
`cobs_decode (cobs_encode_to_vec x) = some x` (where `some` reflects that
the decoder's `unwrap` cannot panic on well-formed input). -/
theorem claim_C1_decode_encode_roundtrip (x : List Nat) :
    cobs_decode (cobs_encode_to_vec x) = some x := by
  rw [cobs_encode_to_vec_eq_cobsEnc]
  exact cobs_decode_cobsEnc x

/-! ## The trivial buffer encoder writes `cobsEnc` -/

theorem applyWrites_snoc (buf : List Nat) (ws : List (Nat × Nat)) (i v : Nat) :
    applyWrites buf (ws ++ [(i, v)]) = (applyWrites buf ws).set i v := by
  simp [applyWrites, List.foldl_append]

theorem set_append_left (l1 l2 : List Nat) (i v : Nat) (h : i < l1.length) :
    (l1 ++ l2).set i v = l1.set i v ++ l2 := by
  induction l1 generalizing i with
  | nil => simp at h
  | cons a t ih =>
    cases i with
    | zero => simp
    | succ i =>
      simp only [List.cons_append, List.set_cons_succ]
      rw [ih i (by simp at h; omega)]

theorem eff_push (L : Nat) (res : List Nat) (b : Nat) (h : res.length + 1 ≤ L) :
    (res ++ List.replicate (L - res.length) 0).set res.length b =
      (res ++ [b]) ++ List.replicate (L - (res.length + 1)) 0 := by
  have hrep : List.replicate (L - res.length) (0 : Nat) =
      0 :: List.replicate (L - (res.length + 1)) 0 := by
    have hs : L - res.length = (L - (res.length + 1)) + 1 := by omega
    rw [hs, List.replicate_succ]
  rw [hrep, set_append_middle]
  simp

theorem eff_push2 (L : Nat) (res : List Nat) (b : Nat) (h : res.length + 2 ≤ L) :
    (res ++ List.replicate (L - res.length) 0).set (res.length + 1) b =
      (res ++ [0, b]) ++ List.replicate (L - (res.length + 2)) 0 := by
  have hrep : List.replicate (L - res.length) (0 : Nat) =
      0 :: 0 :: List.replicate (L - (res.length + 2)) 0 := by
    have hs : L - res.length = (L - (res.length + 2)) + 1 + 1 := by omega
    rw [hs, List.replicate_succ, List.replicate_succ]
  rw [hrep]
  have hmid := set_append_middle (res ++ [0]) (List.replicate (L - (res.length + 2)) 0) 0 b
  simp only [List.length_append, List.length_cons, List.length_nil] at hmid
  have hform : res ++ 0 :: 0 :: List.replicate (L - (res.length + 2)) 0 =
      (res ++ [0]) ++ 0 :: List.replicate (L - (res.length + 2)) 0 := by
    simp
  rw [hform]
  have hidx : res.length + 1 = res.length + 0 + 1 := by omega
  rw [hidx] at hmid ⊢
  rw [hmid]
  simp

theorem eff_backfill (L : Nat) (res : List Nat) (i v : Nat) (h : i < res.length) :
    (res ++ List.replicate (L - res.length) 0).set i v =
      res.set i v ++ List.replicate (L - (res.set i v).length) 0 := by
  rw [set_append_left _ _ _ _ h]
  simp

theorem trivialStep_boundary_zero (ws : List (Nat × Nat)) (w : Nat) :
    trivialStep (ws, w, 0) 0 = (ws ++ [(w, 1)], w + 1, 0) := by
  simp [trivialStep]

theorem trivialStep_boundary_nonzero (ws : List (Nat × Nat)) (w b : Nat) (hb : b ≠ 0) :
    trivialStep (ws, w, 0) b = (ws ++ [(w + 1, b)], w + 2, 1) := by
  simp [trivialStep, hb]

theorem trivialStep_mid_zero (ws : List (Nat × Nat)) (w cbl : Nat) (hc : 1 ≤ cbl) :
    trivialStep (ws, w, cbl) 0 = (ws ++ [(w - 1 - cbl, cbl + 1)], w, 0) := by
  have hc0 : ¬cbl = 0 := by omega
  simp [trivialStep, hc0]

theorem trivialStep_mid_nonzero (ws : List (Nat × Nat)) (w cbl b : Nat) (hb : b ≠ 0)
    (hc : 1 ≤ cbl) (hcap : cbl + 1 ≠ 254) :
    trivialStep (ws, w, cbl) b = (ws ++ [(w, b)], w + 1, cbl + 1) := by
  have hc0 : ¬cbl = 0 := by omega
  simp [trivialStep, hb, hcap, hc0]

theorem trivialStep_mid_cap (ws : List (Nat × Nat)) (w b : Nat) (hb : b ≠ 0) :
    trivialStep (ws, w, 253) b = ((ws ++ [(w, b)]) ++ [(w - 254, 255)], w + 1, 0) := by
  simp [trivialStep, hb]

theorem vecStep_raw_zero (res : List Nat) (cbl : Nat) (hc : cbl ≠ 0) :
    vecStep (res, cbl) 0 = (res.set (res.length - 1 - cbl) (cbl + 1), 0) := by
  simp [vecStep, hc]

theorem vecStep_raw_nonzero (res : List Nat) (cbl b : Nat) (hc : cbl ≠ 0)
    (hb : b ≠ 0) (hcap : cbl + 1 ≠ 254) :
    vecStep (res, cbl) b = (res ++ [b], cbl + 1) := by
  simp [vecStep, hc, hb, hcap]

theorem vecStep_raw_cap (res : List Nat) (b : Nat) (hb : b ≠ 0) :
    vecStep (res, 253) b = ((res ++ [b]).set (res.length - 254) 255, 0) := by
  simp [vecStep, hb]

theorem triv_vec_fold (stream : List Nat) :
    ∀ (ws : List (Nat × Nat)) (res : List Nat) (cbl w : Nat),
      w = res.length →
      cbl = 0 ∨ (1 ≤ cbl ∧ cbl + 1 ≤ res.length) →
      (List.foldl trivialStep (ws, w, cbl) stream).2.1 =
        (List.foldl vecStep (res, cbl) stream).1.length ∧
      (List.foldl trivialStep (ws, w, cbl) stream).2.2 =
        (List.foldl vecStep (res, cbl) stream).2 ∧
      res.length ≤ (List.foldl vecStep (res, cbl) stream).1.length ∧
      ∀ L : Nat, (List.foldl vecStep (res, cbl) stream).1.length ≤ L →
        applyWrites (List.replicate L 0) ws =
          res ++ List.replicate (L - res.length) 0 →
        applyWrites (List.replicate L 0)
            (List.foldl trivialStep (ws, w, cbl) stream).1 =
          (List.foldl vecStep (res, cbl) stream).1 ++
            List.replicate (L - (List.foldl vecStep (res, cbl) stream).1.length) 0 := by
  induction stream with
  | nil =>
    intro ws res cbl w hw hinv
    subst hw
    refine ⟨rfl, rfl, le_rfl, ?_⟩
    intro L hL hEff
    simpa using hEff
  | cons b rest ih =>
    intro ws res cbl w hw hinv
    subst hw
    rcases hinv with hc0 | ⟨hc1, hcge⟩
    · -- start of a group
      subst hc0
      by_cases hb : b = 0
      · -- empty group closed immediately
        subst hb
        rw [List.foldl_cons, List.foldl_cons, vecStep_boundary_zero,
          trivialStep_boundary_zero]
        obtain ⟨h1, h2, h3, h4⟩ :=
          ih (ws ++ [(res.length, 1)]) (res ++ [1]) 0 (res.length + 1)
            (by simp) (Or.inl rfl)
        refine ⟨h1, h2, ?_, ?_⟩
        · simp at h3 ⊢
          omega
        · intro L hL hEff
          apply h4 L hL
          rw [applyWrites_snoc, hEff]
          simpa using eff_push L res 1 (by simp at h3; omega)
      · -- group opened with a data byte
        rw [List.foldl_cons, List.foldl_cons, vecStep_boundary_nonzero res b hb,
          trivialStep_boundary_nonzero ws res.length b hb]
        obtain ⟨h1, h2, h3, h4⟩ :=
          ih (ws ++ [(res.length + 1, b)]) (res ++ 0 :: [b]) 1 (res.length + 2)
            (by simp) (Or.inr ⟨by omega, by simp⟩)
        refine ⟨h1, h2, ?_, ?_⟩
        · simp at h3 ⊢
          omega
        · intro L hL hEff
          apply h4 L hL
          rw [applyWrites_snoc, hEff]
          have heff := eff_push2 L res b (by simp at h3; omega)
          simpa using heff
    · -- inside a group
      have hc : cbl ≠ 0 := by omega
      by_cases hb : b = 0
      · -- group closed by a zero byte
        subst hb
        rw [List.foldl_cons, List.foldl_cons, vecStep_raw_zero res cbl hc,
          trivialStep_mid_zero ws res.length cbl (by omega)]
        obtain ⟨h1, h2, h3, h4⟩ :=
          ih (ws ++ [(res.length - 1 - cbl, cbl + 1)])
            (res.set (res.length - 1 - cbl) (cbl + 1)) 0 res.length
            (by simp) (Or.inl rfl)
        refine ⟨h1, h2, ?_, ?_⟩
        · simp at h3 ⊢
          omega
        · intro L hL hEff
          apply h4 L hL
          rw [applyWrites_snoc, hEff]
          rw [eff_backfill L res (res.length - 1 - cbl) (cbl + 1) (by omega)]
      · by_cases hcap : cbl + 1 = 254
        · -- group closed by reaching 254 bytes
          have hc253 : cbl = 253 := by omega
          subst hc253
          rw [List.foldl_cons, List.foldl_cons, vecStep_raw_cap res b hb,
            trivialStep_mid_cap ws res.length b hb]
          obtain ⟨h1, h2, h3, h4⟩ :=
            ih ((ws ++ [(res.length, b)]) ++ [(res.length - 254, 255)])
              ((res ++ [b]).set (res.length - 254) 255) 0 (res.length + 1)
              (by simp) (Or.inl rfl)
          refine ⟨h1, h2, ?_, ?_⟩
          · simp at h3 ⊢
            omega
          · intro L hL hEff
            apply h4 L hL
            rw [applyWrites_snoc, applyWrites_snoc, hEff]
            have he1 := eff_push L res b (by simp at h3; omega)
            have he2 := eff_backfill L (res ++ [b]) (res.length - 254) 255 (by simp; omega)
            simp only [List.length_append, List.length_cons, List.length_nil] at he1 he2 ⊢
            rw [he1, he2]
        · -- data byte inside a group
          rw [List.foldl_cons, List.foldl_cons,
            vecStep_raw_nonzero res cbl b hc hb hcap,
            trivialStep_mid_nonzero ws res.length cbl b hb (by omega) hcap]
          obtain ⟨h1, h2, h3, h4⟩ :=
            ih (ws ++ [(res.length, b)]) (res ++ [b]) (cbl + 1) (res.length + 1)
              (by simp) (Or.inr ⟨by omega, by simp; omega⟩)
          refine ⟨h1, h2, ?_, ?_⟩
          · simp at h3 ⊢
            omega
          · intro L hL hEff
            apply h4 L hL
            rw [applyWrites_snoc, hEff]
            simpa using eff_push L res b (by simp at h3; omega)

theorem cobs_encode_to_trivial_spec (input : List Nat) :
    (cobs_encode_to_trivial input).2 = (cobsEnc input).length ∧
    ∀ L : Nat, (cobsEnc input).length ≤ L →
      applyWrites (List.replicate L 0) (cobs_encode_to_trivial input).1 =
        cobsEnc input ++ List.replicate (L - (cobsEnc input).length) 0 := by
  have hvec := vec_fold_cobsEnc_bounded input.length input le_rfl []
  obtain ⟨h1, h2, h3, h4⟩ :=
    triv_vec_fold (input ++ [0]) [] [] 0 0 rfl (Or.inl rfl)
  rw [hvec] at h1 h4
  constructor
  · unfold cobs_encode_to_trivial
    simpa using h1
  · intro L hL
    have hh := h4 L (by simpa using hL) (by simp [applyWrites])
    unfold cobs_encode_to_trivial
    simpa using hh

/-! ## Claims C3 and C4 -/

/-- C3: for every byte sequence `x` of bytes (`< 256`), the encoded output —
the first returned-count bytes that `cobs_encode_to_trivial` wrote into a
(zero-initialized) buffer of sufficient size — contains no zero byte: every
byte of it lies in `1..=255`. -/
theorem claim_C3_output_zero_free (x : List Nat) (L : Nat)
    (hx : ∀ a ∈ x, a < 256) (hL : (cobs_encode_to_trivial x).2 ≤ L) :
    ∀ b ∈ (applyWrites (List.replicate L 0) (cobs_encode_to_trivial x).1).take
      (cobs_encode_to_trivial x).2, 1 ≤ b ∧ b ≤ 255 := by
  obtain ⟨hcount, heff⟩ := cobs_encode_to_trivial_spec x
  rw [hcount] at hL ⊢
  rw [heff L hL]
  intro b hb
  rw [take_append_len _ _ _ rfl] at hb
  exact ⟨cobsEnc_mem_pos x b hb, cobsEnc_mem_le x hx b hb⟩

/-- Witness for C3 at `x = [0x11, 0x22, 0x00, 0x33]`: the first output byte
(the length byte 3) lies in `1..=255`. -/
theorem claim_C3_witness : 1 ≤ 3 ∧ 3 ≤ 255 :=
  claim_C3_output_zero_free [17, 34, 0, 51] 5 (by decide) (by decide) 3 (by decide)

set_option maxRecDepth 10000 in
/-- C4 fails on the code: `encoded_size_upper_bound 254 = 255`, but on an
input of 254 non-zero bytes `cobs_encode_to_trivial` returns 256 and its
write events include index 255 — one byte count beyond the documented
bound, and a write at an index not strictly below the bound (an
out-of-bounds panic in Rust when the output buffer has exactly the
documented size). -/
theorem claim_C4_bound_violated :
    encoded_size_upper_bound 254 = 255 ∧
    (cobs_encode_to_trivial (List.replicate 254 1)).2 = 256 ∧
    (255, 1) ∈ (cobs_encode_to_trivial (List.replicate 254 1)).1 := by
  refine ⟨by decide, by decide, by decide⟩

/-! ## Claims C7 and C8 -/

/-- C7: on a well-formed record — one length byte `p ∈ 1..=255` followed by
at least `p - 1` payload bytes — `cobs_decode` copies the `p - 1` payload
bytes verbatim, appends a single zero byte exactly when `p ≠ 255` and
further input remains after the record, and continues with the rest; in
particular no zero is appended after a record that ends the input, whether
`p = 255` or not. -/
theorem claim_C7_decoder_record (p : Nat) (rest : List Nat)
    (hp1 : 1 ≤ p) (_hp255 : p ≤ 255) (hlen : p - 1 ≤ rest.length) :
    cobs_decode (p :: rest) =
      (cobs_decode (rest.drop (p - 1))).map
        (fun tail => rest.take (p - 1) ++
          (if p ≠ 255 ∧ p - 1 < rest.length then [0] else []) ++ tail) := by
  unfold cobs_decode
  have hstep : cobsDecodeGo (rest.length + 1) [] (p :: rest) =
      cobsDecodeGo rest.length
        ([] ++ rest.take (p - 1) ++
          (if p ≠ 255 ∧ p - 1 < rest.length then [0] else []))
        (rest.drop (p - 1)) := by
    show (if p = 0 then none else if rest.length < p - 1 then none else _) = _
    rw [if_neg (by omega), if_neg (by omega)]
  rw [show (p :: rest).length = rest.length + 1 from rfl, hstep,
    cobsDecodeGo_acc, cobsDecodeGo_fuel_irrel rest.length (rest.drop (p - 1)).length
      [] (rest.drop (p - 1)) (by simp) le_rfl]
  cases cobs_decode (rest.drop (p - 1)) with
  | none => rfl
  | some out => simp

/-- Witness for C7: decoding the single record `[3, 7, 8]` (length byte 3,
payload `[7, 8]`, end of input) yields `[7, 8]` with no trailing zero. -/
theorem claim_C7_witness : cobs_decode [3, 7, 8] = some [7, 8] := by
  have h := claim_C7_decoder_record 3 [7, 8] (by decide) (by decide) (by decide)
  rw [h]
  decide

theorem cobsDecodeGo_none_iff_truncated (fuel : Nat) :
    ∀ (l res : List Nat),
      (cobsDecodeGo fuel res l = none ↔ truncatedGo fuel l = true) := by
  induction fuel with
  | zero =>
    intro l res
    cases l <;> simp [cobsDecodeGo, truncatedGo]
  | succ k ih =>
    intro l res
    cases l with
    | nil => simp [cobsDecodeGo, truncatedGo]
    | cons p rest =>
      by_cases hp : p = 0
      · simp [cobsDecodeGo, truncatedGo, hp]
      · by_cases hr : rest.length < p - 1
        · simp [cobsDecodeGo, truncatedGo, hp, hr]
        · show (if p = 0 then none else if rest.length < p - 1 then none else _) = none ↔
            (if p = 0 then true else if rest.length < p - 1 then true else _) = true
          rw [if_neg hp, if_neg hr, if_neg hp, if_neg hr]
          exact ih _ _

/-- C8: `cobs_decode` fails deterministically — modelled as `none`, the
panic of `it.next().unwrap()` (or of the `overhead_byte - 1` underflow for
a zero length byte) — exactly on the inputs in which some length byte
claims more payload bytes than remain after it; on all other inputs it
returns a result.  (The iterator-based access pattern cannot index outside
the input slice, which is why the model needs no out-of-bounds case.) -/
theorem claim_C8_malformed_input_fails (input : List Nat) :
    cobs_decode input = none ↔ hasTruncatedRecord input = true :=
  cobsDecodeGo_none_iff_truncated input.length input []

/-! ## Claim C9 -/

set_option maxRecDepth 2000 in
/-- C9: encoding the empty input produces exactly one byte with value 1:
`cobs_encode_to_vec [] = [1]`; the buffer-based encoders return count 1
after writing value 1 at index 0 (hence need an output buffer of length at
least 1); and the block splitter yields exactly one empty terminal block
for empty input. -/
theorem claim_C9_empty_input :
    cobs_encode_to_vec [] = [1] ∧
    cobs_encode_to_trivial [] = ([(0, 1)], 1) ∧
    cobs_encode_to_opt [] = ([(0, 1)], 1) ∧
    cobs_encode_to_std 8 [] = ([(0, 1)], 1) ∧
    cobs_encode_to_chained_iter (SimdBlocksGeneric_next_zero_index 8) [] = ([(0, 1)], 1) ∧
    blockIterList SimdBlocks16_next_zero_index 254 [] = [[]] := by
  refine ⟨by decide, by decide, by decide, by decide, by decide, by decide⟩

/-! ## Claim C5: block iterator invariants -/

theorem blockIterGo_succ (zf : List Nat → Option Nat) (mbs : Nat) (x : List Nat)
    (fuel p : Nat) :
    blockIterGo zf mbs x (fuel + 1) p =
      if p = x.length + 1 then []
      else if p = x.length then [] :: blockIterGo zf mbs x fuel (p + 1)
      else
        match zf ((x.drop p).take (min (p + mbs) x.length - p)) with
        | some i => ((x.drop p).take i) :: blockIterGo zf mbs x fuel (p + i + 1)
        | none =>
          if min (p + mbs) x.length = x.length then
            (x.drop p) :: blockIterGo zf mbs x fuel (x.length + 1)
          else ((x.drop p).take mbs) :: blockIterGo zf mbs x fuel (p + mbs) := rfl

theorem blockIterGo_blocks_spec (zf : List Nat → Option Nat)
    (hzf : ∀ d, zf d = next_zero_index d) (x : List Nat) :
    ∀ fuel p, ∀ blk ∈ blockIterGo zf 254 x fuel p,
      blk.length ≤ 254 ∧ ∀ y ∈ blk, y ≠ 0 := by
  intro fuel
  induction fuel with
  | zero =>
    intro p blk hblk
    simp [blockIterGo] at hblk
  | succ fuel ih =>
    intro p blk hblk
    rw [blockIterGo_succ] at hblk
    by_cases hdone : p = x.length + 1
    · rw [if_pos hdone] at hblk
      simp at hblk
    · rw [if_neg hdone] at hblk
      by_cases hterm : p = x.length
      · rw [if_pos hterm] at hblk
        rcases List.mem_cons.mp hblk with rfl | hblk
        · exact ⟨by simp, by simp⟩
        · exact ih (p + 1) blk hblk
      · rw [if_neg hterm] at hblk
        rw [hzf] at hblk
        have hub1 : min (p + 254) x.length ≤ x.length := Nat.min_le_right _ _
        have hub2 : min (p + 254) x.length ≤ p + 254 := Nat.min_le_left _ _
        have hwlen : ((x.drop p).take (min (p + 254) x.length - p)).length =
            min (min (p + 254) x.length - p) (x.length - p) := by
          simp
        cases hz : next_zero_index ((x.drop p).take (min (p + 254) x.length - p)) with
        | some i =>
          rw [hz] at hblk
          have hi := (next_zero_index_some_spec _ _ hz).1
          rw [hwlen] at hi
          rcases List.mem_cons.mp hblk with rfl | hblk
          · constructor
            · simp
              omega
            · intro y hy
              have hyw : y ∈ ((x.drop p).take (min (p + 254) x.length - p)).take i := by
                have hq : (x.drop p).take i =
                    ((x.drop p).take (min (p + 254) x.length - p)).take i := by
                  rw [List.take_take]
                  congr 1
                  omega
                rwa [hq] at hy
              exact next_zero_index_take_nonzero _ i hz y hyw
          · exact ih (p + i + 1) blk hblk
        | none =>
          rw [hz] at hblk
          have hnzw := (next_zero_index_none_iff _).mp hz
          by_cases hub : min (p + 254) x.length = x.length
          · rw [if_pos hub] at hblk
            rcases List.mem_cons.mp hblk with rfl | hblk
            · constructor
              · simp
                omega
              · intro y hy
                apply hnzw
                have hq : (x.drop p).take (min (p + 254) x.length - p) = x.drop p := by
                  rw [hub]
                  have hlen2 : (x.drop p).length = x.length - p := by simp
                  rw [← hlen2, List.take_length]
                rwa [hq]
            · exact ih (x.length + 1) blk hblk
          · rw [if_neg hub] at hblk
            have hub254 : min (p + 254) x.length = p + 254 := by
              rcases le_total (p + 254) x.length with hmc | hmc
              · exact Nat.min_eq_left hmc
              · exact absurd (Nat.min_eq_right hmc) hub
            rcases List.mem_cons.mp hblk with rfl | hblk
            · constructor
              · simp
              · intro y hy
                apply hnzw
                rw [hub254]
                have hq : p + 254 - p = 254 := by omega
                rw [hq]
                exact hy
            · exact ih (p + 254) blk hblk

/-- C5: every block yielded by `BlockIter::new(input, 254)` — driven, as in
`block_iter.rs`, by the 16-byte SIMD zero scanner — has length at most 254
and contains no zero byte (in particular the only block allowed to be empty
content-wise, the synthetic terminal block, vacuously has no zero). -/
theorem claim_C5_blocks_bounded_zero_free (x : List Nat) :
    ∀ blk ∈ blockIterList SimdBlocks16_next_zero_index 254 x,
      blk.length ≤ 254 ∧ ∀ y ∈ blk, y ≠ 0 :=
  fun blk hblk =>
    blockIterGo_blocks_spec SimdBlocks16_next_zero_index
      SimdBlocks16_next_zero_index_eq x (x.length + 2) 0 blk hblk

/-- Witness for C5 on the repository's own `iter` test input
`[1, 2, 3, 4, 0, 1, 2, 3]`: its first block `[1, 2, 3, 4]` is short and
zero-free. -/
theorem claim_C5_witness :
    ([1, 2, 3, 4] : List Nat).length ≤ 254 ∧ ∀ y ∈ ([1, 2, 3, 4] : List Nat), y ≠ 0 :=
  claim_C5_blocks_bounded_zero_free [1, 2, 3, 4, 0, 1, 2, 3] [1, 2, 3, 4] (by decide)

/-! ## Block-based encoders: serialization machinery -/

theorem blockIterGo_congr (zf zf2 : List Nat → Option Nat) (mbs : Nat)
    (x : List Nat)
    (h : ∀ d : List Nat, d.length ≤ mbs → zf d = zf2 d) :
    ∀ fuel p, blockIterGo zf mbs x fuel p = blockIterGo zf2 mbs x fuel p := by
  intro fuel
  induction fuel with
  | zero => intro p; rfl
  | succ fuel ih =>
    intro p
    have hw : ((x.drop p).take (min (p + mbs) x.length - p)).length ≤ mbs := by
      simp only [List.length_take, List.length_drop]
      omega
    rw [blockIterGo_succ, blockIterGo_succ, h _ hw]
    by_cases h1 : p = x.length + 1
    · simp [h1]
    · by_cases h2 : p = x.length
      · simp [h1, h2, ih]
      · simp only [if_neg h1, if_neg h2]
        cases zf2 ((x.drop p).take (min (p + mbs) x.length - p)) with
        | some i => simp only [ih]
        | none =>
          by_cases h3 : min (p + mbs) x.length = x.length
          · simp only [if_pos h3, ih]
          · simp only [if_neg h3, ih]

theorem blockIterGo_done (zf : List Nat → Option Nat) (mbs : Nat) (x : List Nat) :
    ∀ fuel, blockIterGo zf mbs x fuel (x.length + 1) = [] := by
  intro fuel
  cases fuel with
  | zero => rfl
  | succ fuel => rw [blockIterGo_succ, if_pos rfl]

theorem serializeBlocks_cons (b : List Nat) (bs : List (List Nat)) :
    serializeBlocks (b :: bs) = (b.length + 1) :: (b ++ serializeBlocks bs) := by
  simp [serializeBlocks]

theorem take_min_length (l : List Nat) (n : Nat) :
    l.take (min n l.length) = l.take n := by
  rcases le_total n l.length with h | h
  · rw [Nat.min_eq_left h]
  · rw [Nat.min_eq_right h, List.take_length, List.take_of_length_le h]

theorem blockEnc_some (x : List Nat) (i : Nat)
    (hz : next_zero_index (x.take 254) = some i) :
    blockEnc x = (i + 1) :: (x.take i ++ blockEnc (x.drop (i + 1))) := by
  rw [blockEnc]
  split
  · rename_i j hj
    rw [hz] at hj
    injection hj with hij
    subst hij
    rfl
  · rename_i hj
    rw [hz] at hj
    exact absurd hj (by simp)

theorem blockEnc_none (x : List Nat) (hz : next_zero_index (x.take 254) = none) :
    blockEnc x =
      if x.length ≤ 254 then (x.length + 1) :: x
      else 255 :: (x.take 254 ++ blockEnc (x.drop 254)) := by
  rw [blockEnc]
  split
  · rename_i j hj
    rw [hz] at hj
    exact absurd hj (by simp)
  · rfl

theorem cobsEnc_some (x : List Nat) (i : Nat) (hz : next_zero_index x = some i) :
    cobsEnc x =
      if i < 254 then (i + 1) :: (x.take i ++ cobsEnc (x.drop (i + 1)))
      else 255 :: (x.take 254 ++ cobsEnc (x.drop 254)) := by
  rw [cobsEnc]
  split
  · rename_i j hj
    rw [hz] at hj
    injection hj with hij
    subst hij
    rfl
  · rename_i hj
    rw [hz] at hj
    exact absurd hj (by simp)

theorem cobsEnc_none (x : List Nat) (hz : next_zero_index x = none) :
    cobsEnc x =
      if 254 ≤ x.length then 255 :: (x.take 254 ++ cobsEnc (x.drop 254))
      else (x.length + 1) :: x := by
  rw [cobsEnc]
  split
  · rename_i j hj
    rw [hz] at hj
    exact absurd hj (by simp)
  · rfl

theorem blockIterGo_serialize (x : List Nat) :
    ∀ fuel p, p ≤ x.length → x.length + 2 - p ≤ fuel →
      serializeBlocks (blockIterGo next_zero_index 254 x fuel p) =
        blockEnc (x.drop p) := by
  intro fuel
  induction fuel with
  | zero =>
    intro p hp hfuel
    omega
  | succ fuel ih =>
    intro p hp hfuel
    rw [blockIterGo_succ]
    rw [if_neg (by omega : ¬p = x.length + 1)]
    by_cases hterm : p = x.length
    · subst hterm
      rw [if_pos rfl, blockIterGo_done, serializeBlocks_cons]
      rw [List.drop_length, blockEnc_none [] (by simp [next_zero_index])]
      simp [serializeBlocks]
    · rw [if_neg hterm]
      have hplt : p < x.length := by omega
      have hwin : (x.drop p).take (min (p + 254) x.length - p) =
          (x.drop p).take 254 := by
        have hmin : min (p + 254) x.length - p = min 254 ((x.drop p).length) := by
          rw [List.length_drop]
          omega
        rw [hmin, take_min_length]
      rw [hwin]
      cases hz : next_zero_index ((x.drop p).take 254) with
      | some i =>
        rw [serializeBlocks_cons, blockEnc_some (x.drop p) i hz]
        have hi := (next_zero_index_some_spec _ _ hz).1
        have hilen : i < (x.drop p).length := by
          rw [List.length_take, List.length_drop] at hi
          rw [List.length_drop]
          omega
        have hblen : ((x.drop p).take i).length = i := by
          rw [List.length_take, List.length_drop]
          rw [List.length_drop] at hilen
          omega
        rw [hblen]
        have hdd : (x.drop p).drop (i + 1) = x.drop (p + i + 1) := by
          rw [List.drop_drop]
          rfl
        rw [hdd]
        rw [ih (p + i + 1) (by rw [List.length_drop] at hilen; omega) (by omega)]
      | none =>
        by_cases hub : min (p + 254) x.length = x.length
        · rw [if_pos hub, blockIterGo_done, serializeBlocks_cons]
          have hlenle : (x.drop p).length ≤ 254 := by
            rw [List.length_drop]
            omega
          rw [blockEnc_none (x.drop p) hz, if_pos hlenle]
          simp [serializeBlocks]
        · rw [if_neg hub]
          have hub254 : min (p + 254) x.length = p + 254 := by
            rcases le_total (p + 254) x.length with hmc | hmc
            · exact Nat.min_eq_left hmc
            · exact absurd (Nat.min_eq_right hmc) hub
          have hlengt : ¬(x.drop p).length ≤ 254 := by
            rw [List.length_drop]
            omega
          rw [serializeBlocks_cons, blockEnc_none (x.drop p) hz, if_neg hlengt]
          have hblen : ((x.drop p).take 254).length = 254 := by
            rw [List.length_take, List.length_drop]
            omega
          rw [hblen]
          have hdd : (x.drop p).drop 254 = x.drop (p + 254) := by
            rw [List.drop_drop]
          rw [hdd]
          rw [ih (p + 254) (by omega) (by omega)]

/-- Write events that place the list `S` at consecutive indices starting at
`n` (what the sequential block-serialization loops emit). -/
def enumWrites : Nat → List Nat → List (Nat × Nat)
  | _, [] => []
  | n, b :: t => (n, b) :: enumWrites (n + 1) t

theorem enumFrom_map_shift (l : List Nat) :
    ∀ k n, (List.enumFrom k l).map (fun q => (n + q.1, q.2)) = enumWrites (n + k) l := by
  induction l with
  | nil => intro k n; rfl
  | cons b t ih =>
    intro k n
    rw [List.enumFrom_cons]
    simp only [List.map_cons, enumWrites]
    rw [ih (k + 1) n]
    rfl

theorem enumWrites_append (l1 : List Nat) :
    ∀ (l2 : List Nat) n,
      enumWrites n (l1 ++ l2) = enumWrites n l1 ++ enumWrites (n + l1.length) l2 := by
  induction l1 with
  | nil => intro l2 n; simp [enumWrites]
  | cons b t ih =>
    intro l2 n
    simp only [List.cons_append, enumWrites, List.length_cons]
    rw [show t.append l2 = t ++ l2 from rfl, ih l2 (n + 1)]
    have harith : n + 1 + t.length = n + (t.length + 1) := by omega
    rw [harith]

theorem blockWriteStep_eq (ws : List (Nat × Nat)) (n : Nat) (block : List Nat) :
    blockWriteStep (ws, n) block =
      (ws ++ enumWrites n ((block.length + 1) :: block), n + block.length + 1) := by
  unfold blockWriteStep
  have hmap : block.enum.map (fun q => (n + 1 + q.1, q.2)) = enumWrites (n + 1) block := by
    have hh := enumFrom_map_shift block 0 (n + 1)
    simpa [List.enum] using hh
  simp only [enumWrites]
  rw [hmap]
  simp

theorem foldl_blockWriteStep (blocks : List (List Nat)) :
    ∀ (ws : List (Nat × Nat)) (n : Nat),
      List.foldl blockWriteStep (ws, n) blocks =
        (ws ++ enumWrites n (serializeBlocks blocks),
          n + (serializeBlocks blocks).length) := by
  induction blocks with
  | nil =>
    intro ws n
    simp [serializeBlocks, enumWrites]
  | cons b bs ih =>
    intro ws n
    rw [List.foldl_cons, blockWriteStep_eq, ih, serializeBlocks_cons]
    simp only [Prod.mk.injEq]
    constructor
    · simp only [enumWrites, List.cons_append]
      rw [enumWrites_append b (serializeBlocks bs) (n + 1)]
      have harith : n + 1 + b.length = n + b.length + 1 := by omega
      rw [harith]
      simp
    · simp only [List.length_cons, List.length_append]
      omega

theorem applyWrites_enumWrites (S : List Nat) :
    ∀ (buf : List Nat) (n : Nat), n + S.length ≤ buf.length →
      applyWrites buf (enumWrites n S) =
        buf.take n ++ S ++ buf.drop (n + S.length) := by
  induction S with
  | nil =>
    intro buf n h
    simp only [enumWrites, applyWrites, List.foldl_nil, List.length_nil,
      Nat.add_zero, List.append_nil]
    exact (List.take_append_drop n buf).symm
  | cons b t ih =>
    intro buf n h
    simp only [List.length_cons] at h
    have hn : n < buf.length := by omega
    have hstep : applyWrites buf (enumWrites n (b :: t)) =
        applyWrites (buf.set n b) (enumWrites (n + 1) t) := rfl
    rw [hstep, ih (buf.set n b) (n + 1) (by simp; omega)]
    rw [List.set_eq_take_cons_drop b hn]
    have htake : (buf.take n ++ b :: buf.drop (n + 1)).take (n + 1) =
        buf.take n ++ [b] := by
      rw [List.take_append_eq_append_take]
      have hlt : (buf.take n).length = n := by
        rw [List.length_take]
        omega
      rw [List.take_of_length_le (by omega), hlt]
      have h1 : n + 1 - n = 1 := by omega
      rw [h1]
      rfl
    have hdrop : (buf.take n ++ b :: buf.drop (n + 1)).drop (n + 1 + t.length) =
        buf.drop (n + (t.length + 1)) := by
      rw [List.drop_append_eq_append_drop]
      have hlt : (buf.take n).length = n := by
        rw [List.length_take]
        omega
      rw [List.drop_of_length_le (by omega), hlt]
      have h1 : n + 1 + t.length - n = t.length + 1 := by omega
      rw [h1]
      simp only [List.nil_append]
      rw [show (b :: buf.drop (n + 1)).drop (t.length + 1) =
          (buf.drop (n + 1)).drop t.length from rfl]
      rw [List.drop_drop]
      congr 1
      omega
    rw [htake, hdrop]
    simp

theorem applyWrites_enumWrites_zero (S : List Nat) (L : Nat) (h : S.length ≤ L) :
    applyWrites (List.replicate L 0) (enumWrites 0 S) =
      S ++ List.replicate (L - S.length) 0 := by
  rw [applyWrites_enumWrites S (List.replicate L 0) 0 (by simp; omega)]
  simp [List.drop_replicate]

/-! ## The two-stage encoders -/

/-- The blocks produced by `BlockIter::new(input, input.len())` (the first
stage of the two-stage encoders): maximal zero-free runs with the zero
separators consumed, plus the synthetic terminal empty block when the input
ends in a zero or is empty. -/
def largeList (x : List Nat) : List (List Nat) :=
  match h : next_zero_index x with
  | some i => x.take i :: largeList (x.drop (i + 1))
  | none => if x = [] then [[]] else [x]
termination_by x.length
decreasing_by
  simp only [List.length_drop]
  have hsp := (next_zero_index_some_spec x i h).1
  omega

theorem largeList_some (x : List Nat) (i : Nat) (hz : next_zero_index x = some i) :
    largeList x = x.take i :: largeList (x.drop (i + 1)) := by
  rw [largeList]
  split
  · rename_i j hj
    rw [hz] at hj
    injection hj with hij
    subst hij
    rfl
  · rename_i hj
    rw [hz] at hj
    exact absurd hj (by simp)

theorem largeList_none (x : List Nat) (hz : next_zero_index x = none) :
    largeList x = if x = [] then [[]] else [x] := by
  rw [largeList]
  split
  · rename_i j hj
    rw [hz] at hj
    exact absurd hj (by simp)
  · rfl

theorem blockIterGo_large (x : List Nat) :
    ∀ fuel p, p ≤ x.length → x.length + 2 - p ≤ fuel →
      blockIterGo next_zero_index x.length x fuel p = largeList (x.drop p) := by
  intro fuel
  induction fuel with
  | zero =>
    intro p hp hfuel
    omega
  | succ fuel ih =>
    intro p hp hfuel
    rw [blockIterGo_succ, if_neg (by omega : ¬p = x.length + 1)]
    by_cases hterm : p = x.length
    · subst hterm
      rw [if_pos rfl, blockIterGo_done, List.drop_length,
        largeList_none [] (by simp [next_zero_index]), if_pos rfl]
    · rw [if_neg hterm]
      have hplt : p < x.length := by omega
      have hmineq : min (p + x.length) x.length = x.length := Nat.min_eq_right (by omega)
      have hwin : (x.drop p).take (min (p + x.length) x.length - p) = x.drop p := by
        rw [hmineq]
        exact List.take_of_length_le (by rw [List.length_drop])
      rw [hwin]
      cases hz : next_zero_index (x.drop p) with
      | some i =>
        have hi := (next_zero_index_some_spec _ _ hz).1
        rw [List.length_drop] at hi
        have hdd : (x.drop p).drop (i + 1) = x.drop (p + i + 1) := by
          rw [List.drop_drop]
          rfl
        show List.take i (List.drop p x) ::
            blockIterGo next_zero_index x.length x fuel (p + i + 1) =
          largeList (List.drop p x)
        rw [largeList_some _ _ hz, hdd, ih (p + i + 1) (by omega) (by omega)]
      | none =>
        show (if min (p + x.length) x.length = x.length then
            List.drop p x :: blockIterGo next_zero_index x.length x fuel (x.length + 1)
          else List.take x.length (List.drop p x) ::
            blockIterGo next_zero_index x.length x fuel (p + x.length)) =
          largeList (List.drop p x)
        rw [if_pos hmineq, blockIterGo_done, largeList_none _ hz,
          if_neg (by simp [← List.length_pos]; omega)]

/-- Serialization of one large block by `cobs_encode_to_chained_iter`: an
empty large block becomes the single record `[1]`, a non-empty one is
re-chunked into records of at most 254 payload bytes. -/
def chunkSer (L : List Nat) : List Nat :=
  if L = [] then [1] else serializeBlocks (chunksList 254 L)

theorem foldl_chainedIterStep (Ls : List (List Nat)) :
    ∀ (ws : List (Nat × Nat)) (n : Nat),
      List.foldl chainedIterStep (ws, n) Ls =
        (ws ++ enumWrites n ((Ls.map chunkSer).flatten),
          n + ((Ls.map chunkSer).flatten).length) := by
  induction Ls with
  | nil =>
    intro ws n
    simp [enumWrites]
  | cons L Ls ih =>
    intro ws n
    rw [List.foldl_cons]
    by_cases hL : L = []
    · subst hL
      have hstep : chainedIterStep (ws, n) [] = (ws ++ enumWrites n [1], n + 1) := by
        unfold chainedIterStep
        rw [if_neg (by simp)]
        simpa [enumWrites] using blockWriteStep_eq ws n []
      rw [hstep, ih]
      simp only [List.map_cons, List.flatten_cons, chunkSer, if_pos rfl]
      rw [enumWrites_append]
      simp only [Prod.mk.injEq]
      constructor
      · simp
      · simp
        omega
    · have hstep : chainedIterStep (ws, n) L =
          (ws ++ enumWrites n (chunkSer L), n + (chunkSer L).length) := by
        unfold chainedIterStep
        rw [if_pos hL, foldl_blockWriteStep]
        unfold chunkSer
        rw [if_neg hL]
      rw [hstep, ih]
      simp only [List.map_cons, List.flatten_cons]
      rw [enumWrites_append]
      simp only [Prod.mk.injEq]
      constructor
      · simp
      · simp
        omega

theorem next_zero_index_run_zero (R : List Nat) :
    ∀ t : List Nat, (∀ b ∈ R, b ≠ 0) →
      next_zero_index (R ++ 0 :: t) = some R.length := by
  induction R with
  | nil => intro t _; simp [next_zero_index]
  | cons a R ih =>
    intro t hnz
    have ha : a ≠ 0 := hnz a (by simp)
    simp only [List.cons_append, next_zero_index, if_neg ha, List.append_eq]
    rw [ih t (fun b hb => hnz b (by simp [hb]))]
    rfl

theorem chunksListF_fuel (n : Nat) :
    ∀ fuel1 fuel2 (l : List Nat), l.length ≤ fuel1 → l.length ≤ fuel2 →
      chunksListF fuel1 n l = chunksListF fuel2 n l := by
  intro fuel1
  induction fuel1 with
  | zero =>
    intro fuel2 l h1 h2
    have hl : l = [] := List.eq_nil_of_length_eq_zero (by omega)
    subst hl
    cases fuel2 with
    | zero => rfl
    | succ f => simp [chunksListF]
  | succ f1 ih =>
    intro fuel2 l h1 h2
    by_cases hl : l = [] ∨ n = 0
    · cases fuel2 with
      | zero =>
        rcases hl with hl | hl
        · subst hl
          simp [chunksListF]
        · have hnil : l = [] := List.eq_nil_of_length_eq_zero (by omega)
          subst hnil
          simp [chunksListF]
      | succ f2 => simp [chunksListF, hl]
    · push_neg at hl
      obtain ⟨hlne, hn0⟩ := hl
      have hn1 : 1 ≤ n := by omega
      have hlen : 1 ≤ l.length := by
        rcases Nat.eq_zero_or_pos l.length with h0 | h0
        · exact absurd (List.eq_nil_of_length_eq_zero h0) hlne
        · omega
      cases fuel2 with
      | zero => omega
      | succ f2 =>
        show (if l = [] ∨ n = 0 then [] else l.take n :: chunksListF f1 n (l.drop n)) =
          (if l = [] ∨ n = 0 then [] else l.take n :: chunksListF f2 n (l.drop n))
        rw [if_neg (by tauto), if_neg (by tauto)]
        rw [ih f2 (l.drop n) (by simp; omega) (by simp; omega)]

theorem chunksList_cons (L : List Nat) (hL : L ≠ []) :
    chunksList 254 L = L.take 254 :: chunksList 254 (L.drop 254) := by
  unfold chunksList
  have hlen : 1 ≤ L.length := by
    rcases Nat.eq_zero_or_pos L.length with h0 | h0
    · exact absurd (List.eq_nil_of_length_eq_zero h0) hL
    · omega
  cases hc : L.length with
  | zero => omega
  | succ m =>
    show (if L = [] ∨ (254 : Nat) = 0 then []
      else L.take 254 :: chunksListF m 254 (L.drop 254)) = _
    rw [if_neg (by simp [hL])]
    rw [chunksListF_fuel 254 m (L.drop 254).length (L.drop 254) (by simp; omega) le_rfl]

theorem chunkSer_small (R : List Nat) (hne : R ≠ []) (hle : R.length ≤ 254) :
    chunkSer R = (R.length + 1) :: R := by
  unfold chunkSer
  rw [if_neg hne, chunksList_cons R hne]
  have hdrop : R.drop 254 = [] := List.drop_eq_nil_of_le hle
  have htake : R.take 254 = R := List.take_of_length_le hle
  rw [hdrop, htake]
  show serializeBlocks [R] = _
  rw [serializeBlocks_cons]
  simp [serializeBlocks]

theorem chunkSer_big (R : List Nat) (hgt : 254 < R.length) :
    chunkSer R = 255 :: (R.take 254 ++ chunkSer (R.drop 254)) := by
  unfold chunkSer
  have hne : R ≠ [] := by
    intro hc
    subst hc
    simp at hgt
  have hdne : R.drop 254 ≠ [] := by
    simp [← List.length_pos]
    omega
  rw [if_neg hne, if_neg hdne, chunksList_cons R hne, serializeBlocks_cons]
  have htlen : (R.take 254).length = 254 := by
    rw [List.length_take]
    omega
  rw [htlen]

theorem chunkSer_terminal_bounded (n : Nat) :
    ∀ R : List Nat, R.length ≤ n → (∀ b ∈ R, b ≠ 0) →
      chunkSer R = blockEnc R := by
  induction n with
  | zero =>
    intro R hlen _
    have hR : R = [] := List.eq_nil_of_length_eq_zero (by omega)
    subst hR
    rw [blockEnc_none [] (by simp [next_zero_index])]
    simp [chunkSer]
  | succ n ih =>
    intro R hlen hnz
    by_cases hne : R = []
    · subst hne
      rw [blockEnc_none [] (by simp [next_zero_index])]
      simp [chunkSer]
    · have hzz : next_zero_index (R.take 254) = none :=
        (next_zero_index_none_iff _).mpr (fun b hb => hnz b (List.take_subset _ _ hb))
      by_cases hle : R.length ≤ 254
      · rw [chunkSer_small R hne hle, blockEnc_none R hzz, if_pos hle]
      · rw [chunkSer_big R (by omega), blockEnc_none R hzz, if_neg hle]
        rw [ih (R.drop 254) (by simp; omega)
          (fun b hb => hnz b (List.drop_subset _ _ hb))]

theorem chunkSer_mid_bounded (n : Nat) :
    ∀ R rest : List Nat, R.length ≤ n → (∀ b ∈ R, b ≠ 0) →
      (R.length = 0 ∨ R.length % 254 ≠ 0) →
      blockEnc (R ++ 0 :: rest) = chunkSer R ++ blockEnc rest := by
  induction n with
  | zero =>
    intro R rest hlen hnz hok
    have hR : R = [] := List.eq_nil_of_length_eq_zero (by omega)
    subst hR
    simp only [List.nil_append]
    rw [blockEnc_some (0 :: rest) 0 (by
      have : (0 :: rest).take 254 = 0 :: rest.take 253 := rfl
      rw [this]
      simp [next_zero_index])]
    simp [chunkSer]
  | succ n ih =>
    intro R rest hlen hnz hok
    by_cases hne : R = []
    · subst hne
      simp only [List.nil_append]
      rw [blockEnc_some (0 :: rest) 0 (by
        have hw : (0 :: rest).take 254 = 0 :: rest.take 253 := rfl
        rw [hw]
        simp [next_zero_index])]
      simp [chunkSer]
    · have hRlen : 1 ≤ R.length := by
        rcases Nat.eq_zero_or_pos R.length with h0 | h0
        · exact absurd (List.eq_nil_of_length_eq_zero h0) hne
        · omega
      by_cases hle : R.length ≤ 253
      · -- single record: the window sees the zero at offset R.length
        have hwin : (R ++ 0 :: rest).take 254 =
            R ++ 0 :: rest.take (254 - R.length - 1) := by
          rw [List.take_append_eq_append_take, List.take_of_length_le (by omega)]
          congr 1
          have h1 : 254 - R.length = (254 - R.length - 1) + 1 := by omega
          rw [h1]
          rfl
        have hz : next_zero_index ((R ++ 0 :: rest).take 254) = some R.length := by
          rw [hwin]
          exact next_zero_index_run_zero R _ hnz
        rw [blockEnc_some _ _ hz]
        have htake : (R ++ 0 :: rest).take R.length = R :=
          take_append_len _ _ _ rfl
        have hdrop : (R ++ 0 :: rest).drop (R.length + 1) = rest := by
          rw [List.drop_append_eq_append_drop,
            List.drop_of_length_le (by omega)]
          have h1 : R.length + 1 - R.length = 1 := by omega
          rw [h1]
          rfl
        rw [htake, hdrop, chunkSer_small R hne (by omega)]
        rfl
      · -- R longer than one chunk: the window is zero-free
        have hRgt : 254 < R.length := by
          rcases hok with h0 | hmod
          · omega
          · rcases Nat.lt_or_ge R.length 254 with hlt | hge
            · omega
            · rcases Nat.eq_or_lt_of_le hge with heq | hlt2
              · exfalso
                apply hmod
                omega
              · exact hlt2
        have hwin : (R ++ 0 :: rest).take 254 = R.take 254 := by
          rw [List.take_append_eq_append_take]
          have h1 : 254 - R.length = 0 := by omega
          rw [h1]
          simp
        have hz : next_zero_index ((R ++ 0 :: rest).take 254) = none := by
          rw [hwin]
          exact (next_zero_index_none_iff _).mpr
            (fun b hb => hnz b (List.take_subset _ _ hb))
        rw [blockEnc_none _ hz,
          if_neg (by simp only [List.length_append, List.length_cons]; omega)]
        have htake : (R ++ 0 :: rest).take 254 = R.take 254 := hwin
        have hdrop : (R ++ 0 :: rest).drop 254 = R.drop 254 ++ 0 :: rest := by
          rw [List.drop_append_eq_append_drop]
          have h1 : 254 - R.length = 0 := by omega
          rw [h1]
          rfl
        rw [htake, hdrop]
        rw [ih (R.drop 254) rest (by simp; omega)
          (fun b hb => hnz b (List.drop_subset _ _ hb))
          (by simp; omega)]
        rw [chunkSer_big R hRgt]
        simp

theorem runsOKGo_run (R : List Nat) :
    ∀ (l : List Nat) (cur : Nat), (∀ b ∈ R, b ≠ 0) →
      runsOKGo cur (R ++ l) = runsOKGo (cur + R.length) l := by
  induction R with
  | nil => intro l cur _; simp [runsOKGo]
  | cons a R ih =>
    intro l cur hnz
    have ha : a ≠ 0 := hnz a (by simp)
    simp only [List.cons_append, runsOKGo, if_neg ha, List.append_eq]
    rw [ih l (cur + 1) (fun b hb => hnz b (by simp [hb]))]
    congr 1
    simp
    omega

theorem runsOKB_decompose_some (x : List Nat) (i : Nat)
    (hz : next_zero_index x = some i) (hok : runsOKB x = true) :
    runLenOK i = true ∧ runsOKB (x.drop (i + 1)) = true := by
  have hdec := next_zero_index_drop_zero x i hz
  have htlen : (x.take i).length = i := by
    have hsp := (next_zero_index_some_spec x i hz).1
    rw [List.length_take]
    omega
  unfold runsOKB at hok ⊢
  conv at hok => rw [hdec]
  rw [runsOKGo_run (x.take i) _ 0 (next_zero_index_take_nonzero x i hz)] at hok
  rw [htlen] at hok
  have hstep : runsOKGo (0 + i) (0 :: x.drop (i + 1)) =
      (runLenOK (0 + i) && runsOKGo 0 (x.drop (i + 1))) := by
    simp [runsOKGo]
  rw [hstep] at hok
  have hpair := Bool.and_eq_true_iff.mp hok
  simpa using hpair

theorem runsOKB_none (x : List Nat) (hz : next_zero_index x = none) :
    runsOKB x = runLenOK x.length := by
  unfold runsOKB
  conv_lhs => rw [show x = x ++ [] by simp]
  rw [runsOKGo_run x [] 0 ((next_zero_index_none_iff x).mp hz)]
  simp [runsOKGo]

theorem twoStage_ser_bounded (n : Nat) :
    ∀ x : List Nat, x.length ≤ n → runsOKB x = true →
      ((largeList x).map chunkSer).flatten = blockEnc x := by
  induction n with
  | zero =>
    intro x hlen hok
    have hx : x = [] := List.eq_nil_of_length_eq_zero (by omega)
    subst hx
    rw [largeList_none [] (by simp [next_zero_index]), if_pos rfl]
    rw [blockEnc_none [] (by simp [next_zero_index])]
    simp [chunkSer]
  | succ n ih =>
    intro x hlen hok
    cases hz : next_zero_index x with
    | some i =>
      obtain ⟨hrun, hrest⟩ := runsOKB_decompose_some x i hz hok
      have hsp := (next_zero_index_some_spec x i hz).1
      have htlen : (x.take i).length = i := by
        rw [List.length_take]
        omega
      rw [largeList_some x i hz]
      simp only [List.map_cons, List.flatten_cons]
      rw [ih (x.drop (i + 1)) (by simp; omega) hrest]
      conv_rhs => rw [next_zero_index_drop_zero x i hz]
      rw [chunkSer_mid_bounded (x.take i).length (x.take i) (x.drop (i + 1)) le_rfl
        (next_zero_index_take_nonzero x i hz)
        (by rw [htlen]; simpa [runLenOK] using hrun)]
    | none =>
      rw [largeList_none x hz]
      by_cases hx : x = []
      · subst hx
        rw [if_pos rfl, blockEnc_none [] (by simp [next_zero_index])]
        simp [chunkSer]
      · rw [if_neg hx]
        simp only [List.map_cons, List.map_nil, List.flatten_cons, List.flatten_nil,
          List.append_nil]
        exact chunkSer_terminal_bounded x.length x le_rfl
          ((next_zero_index_none_iff x).mp hz)

/-! ## Where the trivial encoder agrees with the block encoders -/

theorem next_zero_index_take254_some (x : List Nat) (i : Nat)
    (hz : next_zero_index x = some i) (hi : i < 254) :
    next_zero_index (x.take 254) = some i := by
  have hdec := next_zero_index_drop_zero x i hz
  have htlen : (x.take i).length = i := by
    have hsp := (next_zero_index_some_spec x i hz).1
    rw [List.length_take]
    omega
  have hwin : x.take 254 = x.take i ++ 0 :: (x.drop (i + 1)).take (254 - i - 1) := by
    conv_lhs => rw [hdec]
    rw [List.take_append_eq_append_take, List.take_of_length_le (by omega),
      htlen]
    congr 1
    have h1 : 254 - i = (254 - i - 1) + 1 := by omega
    rw [h1]
    rfl
  rw [hwin, next_zero_index_run_zero _ _ (next_zero_index_take_nonzero x i hz),
    htlen]

theorem next_zero_index_take254_none_ge (x : List Nat) (i : Nat)
    (hz : next_zero_index x = some i) (hi : 254 ≤ i) :
    next_zero_index (x.take 254) = none := by
  apply (next_zero_index_none_iff _).mpr
  intro b hb
  have hsub : x.take 254 = (x.take i).take 254 := by
    rw [List.take_take]
    congr 1
    omega
  rw [hsub] at hb
  exact next_zero_index_take_nonzero x i hz b (List.take_subset _ _ hb)

theorem runsOKB_drop254_of_some (x : List Nat) (i : Nat)
    (hz : next_zero_index x = some i) (h254 : 254 ≤ i)
    (hok : runsOKB x = true) : runsOKB (x.drop 254) = true := by
  have hdec := next_zero_index_drop_zero x i hz
  have hsp := (next_zero_index_some_spec x i hz).1
  have htlen : (x.take i).length = i := by
    rw [List.length_take]
    omega
  have hd : x.drop 254 = (x.take i).drop 254 ++ 0 :: x.drop (i + 1) := by
    conv_lhs => rw [hdec]
    rw [List.drop_append_eq_append_drop]
    have h0 : 254 - (x.take i).length = 0 := by
      rw [htlen]
      omega
    rw [h0]
    rfl
  obtain ⟨hrun, hrest⟩ := runsOKB_decompose_some x i hz hok
  unfold runsOKB
  rw [hd, runsOKGo_run _ _ 0
    (fun b hb => next_zero_index_take_nonzero x i hz b (List.drop_subset _ _ hb))]
  have hdlen : ((x.take i).drop 254).length = i - 254 := by
    rw [List.length_drop, htlen]
  have hstep : runsOKGo (0 + ((x.take i).drop 254).length) (0 :: x.drop (i + 1)) =
      (runLenOK (0 + ((x.take i).drop 254).length) &&
        runsOKGo 0 (x.drop (i + 1))) := by
    simp [runsOKGo]
  rw [hstep, hdlen]
  have hrl : runLenOK (0 + (i - 254)) = true := by
    simp only [runLenOK, Nat.zero_add] at hrun ⊢
    simp at hrun ⊢
    rcases hrun with h0 | hm
    · exfalso
      omega
    · rcases Nat.eq_zero_or_pos (i - 254) with hz2 | hp
      · exact Or.inl hz2
      · exact Or.inr (by omega)
  rw [hrl]
  unfold runsOKB at hrest
  rw [hrest]
  rfl

theorem cobsEnc_eq_blockEnc_bounded (n : Nat) :
    ∀ x : List Nat, x.length ≤ n → runsOKB x = true →
      cobsEnc x = blockEnc x := by
  induction n with
  | zero =>
    intro x hlen _
    have hx : x = [] := List.eq_nil_of_length_eq_zero (by omega)
    subst hx
    rw [cobsEnc_none [] (by simp [next_zero_index]),
      blockEnc_none [] (by simp [next_zero_index])]
    rfl
  | succ n ih =>
    intro x hlen hok
    cases hz : next_zero_index x with
    | some i =>
      have hsp := (next_zero_index_some_spec x i hz).1
      by_cases hi : i < 254
      · rw [cobsEnc_some x i hz, if_pos hi,
          blockEnc_some x i (next_zero_index_take254_some x i hz hi)]
        obtain ⟨hrun, hrest⟩ := runsOKB_decompose_some x i hz hok
        rw [ih (x.drop (i + 1)) (by simp; omega) hrest]
      · rw [cobsEnc_some x i hz, if_neg hi,
          blockEnc_none x (next_zero_index_take254_none_ge x i hz (by omega)),
          if_neg (by omega)]
        rw [ih (x.drop 254) (by simp; omega)
          (runsOKB_drop254_of_some x i hz (by omega) hok)]
    | none =>
      have hallnz := (next_zero_index_none_iff x).mp hz
      by_cases h254 : 254 ≤ x.length
      · have hrl : runLenOK x.length = true := by
          rw [runsOKB_none x hz] at hok
          exact hok
        have hmod : x.length % 254 ≠ 0 := by
          intro hcontra
          have hlen0 : x.length ≠ 0 := by omega
          simp [runLenOK, hlen0, hcontra] at hrl
        have hgt : 254 < x.length := by
          rcases Nat.eq_or_lt_of_le h254 with heq | hlt
          · exfalso
            apply hmod
            omega
          · exact hlt
        rw [cobsEnc_none x hz, if_pos h254,
          blockEnc_none x ((next_zero_index_none_iff _).mpr
            (fun b hb => hallnz b (List.take_subset _ _ hb))),
          if_neg (by omega)]
        have hdok : runsOKB (x.drop 254) = true := by
          rw [runsOKB_none (x.drop 254) ((next_zero_index_none_iff _).mpr
            (fun b hb => hallnz b (List.drop_subset _ _ hb)))]
          simp only [runLenOK, List.length_drop]
          simp
          rcases Nat.eq_zero_or_pos (x.length - 254) with hz2 | hp
          · exact Or.inl hz2
          · exact Or.inr (by omega)
        rw [ih (x.drop 254) (by simp; omega) hdok]
      · rw [cobsEnc_none x hz, if_neg h254,
          blockEnc_none x (by
            rw [List.take_of_length_le (by omega)]
            exact hz),
          if_pos (by omega)]

/-! ## The Wikipedia-translation encoder versus the trivial encoder -/

theorem crazyGo_zero (rest : List Nat) (ws : List (Nat × Nat)) (e cp code : Nat) :
    crazyGo (0 :: rest) ws e cp code =
      crazyGo rest (ws ++ [(cp, code)]) (e + 1) e 1 := by
  simp [crazyGo]

theorem crazyGo_nonzero_nocap (rest : List Nat) (ws : List (Nat × Nat))
    (e cp code b : Nat) (hb : b ≠ 0) (hcode : code + 1 ≠ 255) :
    crazyGo (b :: rest) ws e cp code =
      crazyGo rest (ws ++ [(e, b)]) (e + 1) cp (code + 1) := by
  simp [crazyGo, hb, hcode]

theorem crazyGo_nonzero_cap (rest : List Nat) (ws : List (Nat × Nat))
    (e cp code b : Nat) (hb : b ≠ 0) (hcode : code + 1 = 255) :
    crazyGo (b :: rest) ws e cp code =
      crazyGo rest ((ws ++ [(e, b)]) ++ [(cp, 255)])
        (if rest ≠ [] then e + 2 else e + 1) (e + 1) 1 := by
  simp only [crazyGo, if_neg (by simp [hb] : ¬(b = 0 ∨ False)), hb, hcode]
  simp [hb, hcode]


theorem capEndGo_zero (cbl : Nat) (rest : List Nat) :
    capEndGo cbl (0 :: rest) = capEndGo 0 rest := by
  simp [capEndGo]

theorem capEndGo_nonzero_nocap (cbl b : Nat) (rest : List Nat) (hb : b ≠ 0)
    (hcap : cbl + 1 ≠ 254) :
    capEndGo cbl (b :: rest) = capEndGo (cbl + 1) rest := by
  simp [capEndGo, hb, hcap]

theorem capEndGo_cap (b : Nat) (rest : List Nat) (hb : b ≠ 0) :
    capEndGo 253 (b :: rest) = if rest = [] then true else capEndGo 0 rest := by
  simp [capEndGo, hb]

theorem crazy_triv_corr (r : List Nat) :
    ∀ (ws : List (Nat × Nat)) (w cbl e cp code : Nat),
      cbl ≤ 253 →
      code = cbl + 1 →
      (cbl = 0 → e = w + 1 ∧ cp = w) →
      (1 ≤ cbl → e = w ∧ cp = w - 1 - cbl) →
      (crazyGo r ws e cp code).1 ++
          [((crazyGo r ws e cp code).2.2.1, (crazyGo r ws e cp code).2.2.2)] =
        (List.foldl trivialStep (ws, w, cbl) (r ++ [0])).1 ∧
      (List.foldl trivialStep (ws, w, cbl) (r ++ [0])).2.1 =
        (crazyGo r ws e cp code).2.1 + (if capEndGo cbl r then 1 else 0) := by
  induction r with
  | nil =>
    intro ws w cbl e cp code hle hcode hbd hmid
    rcases Nat.eq_zero_or_pos cbl with hc0 | hc1
    · subst hc0
      obtain ⟨he, hcp⟩ := hbd rfl
      rw [hcode, he, hcp]
      simp [crazyGo, trivialStep_boundary_zero, capEndGo]
    · obtain ⟨he, hcp⟩ := hmid hc1
      rw [hcode, he, hcp]
      simp [crazyGo, trivialStep_mid_zero ws w cbl hc1, capEndGo]
  | cons b rest ih =>
    intro ws w cbl e cp code hle hcode hbd hmid
    rcases Nat.eq_zero_or_pos cbl with hc0 | hc1
    · subst hc0
      obtain ⟨he, hcp⟩ := hbd rfl
      rw [hcode, he, hcp]
      by_cases hb : b = 0
      · subst hb
        rw [crazyGo_zero, List.cons_append, List.foldl_cons,
          trivialStep_boundary_zero, capEndGo_zero]
        exact ih (ws ++ [(w, 1)]) (w + 1) 0 (w + 2) (w + 1) 1 (by omega) rfl
          (fun _ => ⟨rfl, rfl⟩) (fun hcon => by omega)
      · rw [crazyGo_nonzero_nocap rest ws (w + 1) w 1 b hb (by omega),
          List.cons_append, List.foldl_cons,
          trivialStep_boundary_nonzero ws w b hb,
          capEndGo_nonzero_nocap 0 b rest hb (by omega)]
        exact ih (ws ++ [(w + 1, b)]) (w + 2) 1 (w + 2) w 2 (by omega) rfl
          (fun hcon => by omega) (fun _ => ⟨rfl, by omega⟩)
    · obtain ⟨he, hcp⟩ := hmid hc1
      rw [hcode, he, hcp]
      by_cases hb : b = 0
      · subst hb
        rw [crazyGo_zero, List.cons_append, List.foldl_cons,
          trivialStep_mid_zero ws w cbl hc1, capEndGo_zero]
        exact ih (ws ++ [(w - 1 - cbl, cbl + 1)]) w 0 (w + 1) w 1 (by omega) rfl
          (fun _ => ⟨rfl, rfl⟩) (fun hcon => by omega)
      · by_cases hcap : cbl + 1 = 254
        · have hc253 : cbl = 253 := by omega
          subst hc253
          rw [crazyGo_nonzero_cap rest ws w (w - 1 - 253) (253 + 1) b hb (by omega),
            List.cons_append, List.foldl_cons,
            trivialStep_mid_cap ws w b hb, capEndGo_cap b rest hb]
          have hcpeq : w - 1 - 253 = w - 254 := by omega
          rw [hcpeq]
          by_cases hrest : rest = []
          · subst hrest
            simp [crazyGo, trivialStep_boundary_zero]
          · rw [if_pos hrest, if_neg hrest]
            exact ih ((ws ++ [(w, b)]) ++ [(w - 254, 255)]) (w + 1) 0 (w + 2)
              (w + 1) 1 (by omega) rfl (fun _ => ⟨rfl, rfl⟩) (fun hcon => by omega)
        · rw [crazyGo_nonzero_nocap rest ws w (w - 1 - cbl) (cbl + 1) b hb
            (by omega),
            List.cons_append, List.foldl_cons,
            trivialStep_mid_nonzero ws w cbl b hb hc1 hcap,
            capEndGo_nonzero_nocap cbl b rest hb hcap]
          exact ih (ws ++ [(w, b)]) (w + 1) (cbl + 1) (w + 1) (w - 1 - cbl)
            (cbl + 2) (by omega) rfl (fun hcon => by omega)
            (fun _ => ⟨rfl, by omega⟩)

theorem runsOKGo_capEndGo (x : List Nat) :
    ∀ cur cbl, cbl = cur % 254 → runsOKGo cur x = true →
      capEndGo cbl x = false := by
  induction x with
  | nil => intro cur cbl _ _; rfl
  | cons b t ih =>
    intro cur cbl hm hr
    by_cases hb : b = 0
    · subst hb
      simp only [runsOKGo, if_true, eq_self_iff_true, ite_true,
        Bool.and_eq_true] at hr
      simp only [capEndGo, if_true, eq_self_iff_true, ite_true]
      exact ih 0 0 rfl hr.2
    · simp only [runsOKGo, if_neg hb] at hr
      by_cases hcap : cbl + 1 = 254
      · by_cases ht : t = []
        · subst ht
          exfalso
          simp only [runsOKGo, runLenOK, Bool.or_eq_true, decide_eq_true_eq] at hr
          omega
        · simp only [capEndGo, if_neg hb, if_pos hcap, if_neg ht]
          exact ih (cur + 1) 0 (by omega) hr
      · simp only [capEndGo, if_neg hb, if_neg hcap]
        exact ih (cur + 1) (cbl + 1) (by omega) hr

theorem runsOKB_capEnd (x : List Nat) (h : runsOKB x = true) :
    capEndGo 0 x = false :=
  runsOKGo_capEndGo x 0 0 rfl h

/-- On a non-empty input that does not end by exactly completing a 254-byte
block, the C-translation encoder produces exactly the trivial encoder's
write events and count. -/
theorem crazy_eq_trivial (input : List Nat) (hne : input ≠ [])
    (hcap : capEndGo 0 input = false) :
    cobs_encode_to_c input = some (cobs_encode_to_trivial input) := by
  obtain ⟨h1, h2⟩ := crazy_triv_corr input [] 0 0 1 0 1 (by omega) rfl
    (fun _ => ⟨rfl, rfl⟩) (fun hcon => by omega)
  rw [hcap] at h2
  simp only [Bool.false_eq_true, if_false, Nat.add_zero] at h2
  simp only [cobs_encode_to_c, if_neg hne, cobs_encode_to_trivial]
  rw [h1, h2]

theorem cobsEnc_len_le (n : Nat) :
    ∀ x : List Nat, x.length ≤ n → (cobsEnc x).length ≤ 2 * x.length + 2 := by
  induction n with
  | zero =>
    intro x hlen
    have hx : x = [] := List.eq_nil_of_length_eq_zero (by omega)
    subst hx
    rw [cobsEnc_none [] (by simp [next_zero_index])]
    simp
  | succ n ih =>
    intro x hlen
    cases hz : next_zero_index x with
    | some i =>
      have hsp := (next_zero_index_some_spec x i hz).1
      rw [cobsEnc_some x i hz]
      by_cases hi : i < 254
      · rw [if_pos hi]
        have hih := ih (x.drop (i + 1)) (by simp; omega)
        simp only [List.length_cons, List.length_append, List.length_take,
          List.length_drop] at hih ⊢
        omega
      · rw [if_neg hi]
        have hih := ih (x.drop 254) (by simp; omega)
        simp only [List.length_cons, List.length_append, List.length_take,
          List.length_drop] at hih ⊢
        omega
    | none =>
      rw [cobsEnc_none x hz]
      by_cases h254 : 254 ≤ x.length
      · rw [if_pos h254]
        have hih := ih (x.drop 254) (by simp; omega)
        simp only [List.length_cons, List.length_append, List.length_take,
          List.length_drop] at hih ⊢
        omega
      · rw [if_neg h254]
        simp
        omega

/-- The observable outcome of one encoder run: the first returned-count
bytes of an all-zero output buffer of ample size (`2 * len + 2` bounds
every encoder's usage), paired with the returned count; `none` models a
panic. -/
def methodOut (x : List Nat) (m : Method) : Option (List Nat × Nat) :=
  (cobs_encode_to x m).map (fun r =>
    ((applyWrites (List.replicate (2 * x.length + 2) 0) r.1).take r.2, r.2))

theorem methodOut_trivial (x : List Nat) :
    methodOut x Method.Trivial = some (cobsEnc x, (cobsEnc x).length) := by
  obtain ⟨h1, h2⟩ := cobs_encode_to_trivial_spec x
  have hlen : (cobsEnc x).length ≤ 2 * x.length + 2 :=
    cobsEnc_len_le x.length x le_rfl
  have hdis : cobs_encode_to x Method.Trivial =
      some (cobs_encode_to_trivial x) := rfl
  rw [methodOut, hdis, Option.map_some']
  rw [show ((applyWrites (List.replicate (2 * x.length + 2) 0)
        (cobs_encode_to_trivial x).1).take (cobs_encode_to_trivial x).2,
      (cobs_encode_to_trivial x).2) =
      ((applyWrites (List.replicate (2 * x.length + 2) 0)
        (cobs_encode_to_trivial x).1).take (cobsEnc x).length,
      (cobsEnc x).length) by rw [h1]]
  rw [h2 (2 * x.length + 2) hlen, List.take_left]

theorem cobs_encode_to_opt_spec (x : List Nat) :
    cobs_encode_to_opt x = (enumWrites 0 (blockEnc x), (blockEnc x).length) := by
  unfold cobs_encode_to_opt blockIterList
  rw [blockIterGo_congr SimdBlocks16_next_zero_index next_zero_index 254 x
    (fun d _ => SimdBlocks16_next_zero_index_eq d) (x.length + 2) 0]
  have hser := blockIterGo_serialize x (x.length + 2) 0 (by omega) (by omega)
  rw [List.drop_zero] at hser
  rw [foldl_blockWriteStep, hser]
  simp

theorem cobs_encode_to_std_spec (N : Nat) (x : List Nat) :
    cobs_encode_to_std N x = (enumWrites 0 (blockEnc x), (blockEnc x).length) := by
  unfold cobs_encode_to_std blockIterList
  rw [blockIterGo_congr (SimdBlocksGeneric_next_zero_index 32) next_zero_index
    254 x
    (fun d hd => SimdBlocksGeneric_next_zero_index_eq_of_le 32 d
      (le_trans hd (by norm_num [u32size])))
    (x.length + 2) 0]
  have hser := blockIterGo_serialize x (x.length + 2) 0 (by omega) (by omega)
  rw [List.drop_zero] at hser
  rw [foldl_blockWriteStep, hser]
  simp

theorem cobs_encode_to_chained_spec (zf : List Nat → Option Nat)
    (x : List Nat)
    (hzf : ∀ d : List Nat, d.length ≤ x.length → zf d = next_zero_index d) :
    cobs_encode_to_chained_iter zf x =
      (enumWrites 0 (((largeList x).map chunkSer).flatten),
        (((largeList x).map chunkSer).flatten).length) := by
  unfold cobs_encode_to_chained_iter blockIterList
  rw [blockIterGo_congr zf next_zero_index x.length x hzf (x.length + 2) 0]
  have hlg := blockIterGo_large x (x.length + 2) 0 (by omega) (by omega)
  rw [List.drop_zero] at hlg
  rw [hlg, foldl_chainedIterStep]
  simp

theorem cobs_encode_to_chained_congr (zf zf2 : List Nat → Option Nat)
    (h : ∀ d : List Nat, zf d = zf2 d) (x : List Nat) :
    cobs_encode_to_chained_iter zf x = cobs_encode_to_chained_iter zf2 x := by
  unfold cobs_encode_to_chained_iter blockIterList
  rw [blockIterGo_congr zf zf2 x.length x (fun d _ => h d) (x.length + 2) 0]

theorem blockOut_eq (x : List Nat) (hok : runsOKB x = true) :
    ((applyWrites (List.replicate (2 * x.length + 2) 0)
        (enumWrites 0 (blockEnc x))).take (blockEnc x).length,
      (blockEnc x).length) = (cobsEnc x, (cobsEnc x).length) := by
  have hbe : blockEnc x = cobsEnc x :=
    (cobsEnc_eq_blockEnc_bounded x.length x le_rfl hok).symm
  rw [hbe]
  have hlen : (cobsEnc x).length ≤ 2 * x.length + 2 :=
    cobsEnc_len_le x.length x le_rfl
  rw [applyWrites_enumWrites_zero (cobsEnc x) (2 * x.length + 2) hlen,
    List.take_left]

theorem methodOut_agrees (x : List Nat) (m : Method) (hok : runsOKB x = true)
    (hcz : m = Method.Crazy → x ≠ [])
    (hts : (m = Method.StdSimd8TwoStage ∨ m = Method.StdSimd16TwoStage ∨
        m = Method.StdSimd32TwoStage) → x.length ≤ u32size) :
    methodOut x m = methodOut x Method.Trivial := by
  cases m with
  | Trivial => rfl
  | Crazy =>
    have hne := hcz rfl
    simp only [methodOut, cobs_encode_to]
    rw [crazy_eq_trivial x hne (runsOKB_capEnd x hok)]
  | Simd16 =>
    rw [methodOut_trivial]
    simp only [methodOut, cobs_encode_to]
    rw [cobs_encode_to_opt_spec, Option.map_some']
    exact congrArg some (blockOut_eq x hok)
  | StdSimd8 =>
    rw [methodOut_trivial]
    simp only [methodOut, cobs_encode_to]
    rw [cobs_encode_to_std_spec, Option.map_some']
    exact congrArg some (blockOut_eq x hok)
  | StdSimd16 =>
    rw [methodOut_trivial]
    simp only [methodOut, cobs_encode_to]
    rw [cobs_encode_to_std_spec, Option.map_some']
    exact congrArg some (blockOut_eq x hok)
  | StdSimd32 =>
    rw [methodOut_trivial]
    simp only [methodOut, cobs_encode_to]
    rw [cobs_encode_to_std_spec, Option.map_some']
    exact congrArg some (blockOut_eq x hok)
  | StdSimd8TwoStage =>
    have hxl : x.length ≤ u32size := hts (Or.inl rfl)
    rw [methodOut_trivial]
    simp only [methodOut, cobs_encode_to]
    rw [cobs_encode_to_chained_spec _ x
        (fun d hd => SimdBlocksGeneric_next_zero_index_eq_of_le 8 d
          (le_trans hd hxl)),
      twoStage_ser_bounded x.length x le_rfl hok, Option.map_some']
    exact congrArg some (blockOut_eq x hok)
  | StdSimd16TwoStage =>
    have hxl : x.length ≤ u32size := hts (Or.inr (Or.inl rfl))
    rw [methodOut_trivial]
    simp only [methodOut, cobs_encode_to]
    rw [cobs_encode_to_chained_spec _ x
        (fun d hd => SimdBlocksGeneric_next_zero_index_eq_of_le 16 d
          (le_trans hd hxl)),
      twoStage_ser_bounded x.length x le_rfl hok, Option.map_some']
    exact congrArg some (blockOut_eq x hok)
  | StdSimd32TwoStage =>
    have hxl : x.length ≤ u32size := hts (Or.inr (Or.inr rfl))
    rw [methodOut_trivial]
    simp only [methodOut, cobs_encode_to]
    rw [cobs_encode_to_chained_spec _ x
        (fun d hd => SimdBlocksGeneric_next_zero_index_eq_of_le 32 d
          (le_trans hd hxl)),
      twoStage_ser_bounded x.length x le_rfl hok, Option.map_some']
    exact congrArg some (blockOut_eq x hok)

/-- C2 (corrected): the four single-stage block-iterator methods (Simd16,
StdSimd8, StdSimd16, StdSimd32) produce identical write events and counts
on every input, and the three two-stage methods are likewise mutually
identical on every input; all nine methods produce the same output bytes
and count as `Method::Trivial` on every input whose maximal runs of
non-zero bytes each have length zero or length not divisible by 254 — with
two further exceptions: `Method::Crazy` requires a non-empty input (it
asserts on the empty one), and the three two-stage methods require an
input of at most `2^32` bytes, because they hand whole-input windows to
`SimdBlocksGeneric`, whose `u32` byte counter wraps beyond that (the
single-stage methods only ever pass windows of at most 254 bytes, so the
counter cannot wrap there).  As literally stated the claim is false:
see the counterexample theorem for an input on which StdSimd32 and Trivial
return different counts and for the Crazy panic on empty input. -/
theorem claim_C2_methods_equivalence :
    (∀ (x : List Nat) (m : Method),
        (m = Method.Simd16 ∨ m = Method.StdSimd8 ∨ m = Method.StdSimd16 ∨
          m = Method.StdSimd32) →
        cobs_encode_to x m = cobs_encode_to x Method.Simd16) ∧
    (∀ (x : List Nat) (m : Method),
        (m = Method.StdSimd8TwoStage ∨ m = Method.StdSimd16TwoStage ∨
          m = Method.StdSimd32TwoStage) →
        cobs_encode_to x m = cobs_encode_to x Method.StdSimd8TwoStage) ∧
    (∀ (x : List Nat) (m : Method), runsOKB x = true →
        (m = Method.Crazy → x ≠ []) →
        ((m = Method.StdSimd8TwoStage ∨ m = Method.StdSimd16TwoStage ∨
          m = Method.StdSimd32TwoStage) → x.length ≤ u32size) →
        methodOut x m = methodOut x Method.Trivial) := by
  refine ⟨?_, ?_, ?_⟩
  · intro x m hm
    rcases hm with rfl | rfl | rfl | rfl
    · rfl
    all_goals
      simp only [cobs_encode_to]
      rw [cobs_encode_to_std_spec, cobs_encode_to_opt_spec]
  · intro x m hm
    rcases hm with rfl | rfl | rfl
    · rfl
    · simp only [cobs_encode_to]
      rw [cobs_encode_to_chained_congr _ _
        (SimdBlocksGeneric_next_zero_index_congr 16 8) x]
    · simp only [cobs_encode_to]
      rw [cobs_encode_to_chained_congr _ _
        (SimdBlocksGeneric_next_zero_index_congr 32 8) x]
  · exact methodOut_agrees

set_option maxRecDepth 10000 in
/-- C2 as literally stated is false.  On an input of 254 non-zero bytes the
single-stage block method StdSimd32 returns count 255 while Trivial returns
256 (Trivial emits an extra `[1]` record for the phantom trailing zero
after a full 254-byte block); and on the empty input Crazy panics
(`assert!(!input.is_empty())`) while Trivial succeeds with count 1. -/
theorem claim_C2_counterexample :
    (cobs_encode_to (List.replicate 254 1) Method.StdSimd32).map
        (fun r => r.2) = some 255 ∧
    (cobs_encode_to (List.replicate 254 1) Method.Trivial).map
        (fun r => r.2) = some 256 ∧
    cobs_encode_to [] Method.Crazy = none ∧
    (cobs_encode_to [] Method.Trivial).map (fun r => r.2) = some 1 := by
  refine ⟨by decide, by decide, rfl, by decide⟩

/-- Witness for C2: concrete instances of all three clauses of the
corrected statement. -/
theorem claim_C2_witness :
    cobs_encode_to [5] Method.StdSimd8 = cobs_encode_to [5] Method.Simd16 ∧
    cobs_encode_to [5] Method.StdSimd16TwoStage =
      cobs_encode_to [5] Method.StdSimd8TwoStage ∧
    methodOut [7] Method.Crazy = methodOut [7] Method.Trivial :=
  ⟨claim_C2_methods_equivalence.1 [5] Method.StdSimd8 (Or.inr (Or.inl rfl)),
   claim_C2_methods_equivalence.2.1 [5] Method.StdSimd16TwoStage
     (Or.inr (Or.inl rfl)),
   claim_C2_methods_equivalence.2.2 [7] Method.Crazy (by decide)
     (fun _ => by decide) (fun _ => by decide)⟩

/-- C6 as literally stated is false: on the window of `2^32` ones followed
by one zero, the `u32` byte counter of `SimdBlocksGeneric::<8>` wraps to 0
(release build; a debug build panics at the overflowing addition), so the
generic scanner reports the first zero at index 0 while the scalar scan
reports it at index `2^32`. -/
theorem claim_C6_counterexample :
    SimdBlocksGeneric_next_zero_index 8
        (List.replicate u32size 1 ++ [0]) = some 0 ∧
    next_zero_index (List.replicate u32size 1 ++ [0]) = some u32size ∧
    SimdBlocksGeneric_next_zero_index 8 (List.replicate u32size 1 ++ [0]) ≠
      next_zero_index (List.replicate u32size 1 ++ [0]) := by
  have hz : next_zero_index (List.replicate u32size 1 ++ [0]) =
      some u32size := by
    have h := next_zero_index_run_zero (List.replicate u32size 1) []
      (fun b hb => by
        have hb1 := List.eq_of_mem_replicate hb
        omega)
    rw [List.length_replicate] at h
    exact h
  refine ⟨?_, hz, ?_⟩
  · rw [SimdBlocksGeneric_next_zero_index_eq, hz]
    simp [Nat.mod_self]
  · rw [SimdBlocksGeneric_next_zero_index_eq, hz]
    simp only [Option.map_some', Nat.mod_self, ne_eq, Option.some.injEq]
    norm_num [u32size]
